import Mathlib

/-!
Shallow embedding of the ROI (region of interest) construction engine of
`ms_feature_validation/lcms.py`: the `_RoiProcessor` class (`__init__`,
`add`, `append_to_roi`, `extend`, `flag_as_completed`), the matching
routine `_match_mz`, the densification routine `tmp_roi_to_roi`, and the
per-scan driver loop of `make_roi`.

Conventions of the embedding:

* `float64` values (m/z, intensity, retention time) are modelled as `ℚ`;
  the not-a-number absence sentinel of the dense ROI arrays is modelled
  as `Option ℚ`, `none` standing for NaN.
* The structure-of-parallel-arrays state (`mz_mean`, `n_missing`,
  `length`, `max_intensity`, `roi_index`) is modelled as one list of
  `TraceSlot` records; every numpy operation of the source acts
  uniformly on all five parallel arrays, so the zipped representation is
  faithful, and `np.argsort`-based re-sorting becomes a sort of the
  records keyed by mean m/z (only the m/z order is observable).
* Fallible operations (`max` of an empty array, a missing dictionary
  key, nearest-value lookup in an empty array, building a dense ROI from
  an empty scan list) return `none`: an `Option`-valued function models
  the Python code raising an exception at that point.
* `temp_roi_dict` is modelled as an association list.
* The numpy vectorised updates are written as structural recursions with
  an explicit position counter; each definition notes the source lines
  it translates.
-/

/-- Source `TempRoi = namedtuple("TempRoi", ["mz", "sp", "scan"])`
(lcms.py line 848): parallel sample lists of one growable trace. -/
structure TempRoi where
  mz : List ℚ
  sp : List ℚ
  scan : List ℕ
deriving DecidableEq

/-- Source `make_empty_temp_roi` (lcms.py lines 851-852). -/
def make_empty_temp_roi : TempRoi := ⟨[], [], []⟩

/-- One slot of the parallel arrays of `_RoiProcessor`
(`mz_mean`, `n_missing`, `length`, `max_intensity`, `roi_index`),
zipped into a record (lcms.py lines 1009-1013). -/
structure TraceSlot where
  mzMean : ℚ
  nMissing : ℕ
  length : ℕ
  maxIntensity : ℚ
  roiIndex : ℕ
deriving DecidableEq

/-- Finalized `Roi` record (lcms.py lines 855-869): dense intensity and
m/z arrays (`none` is the NaN sentinel), the retention-time slice and
the first scan index. -/
structure Roi where
  spint : List (Option ℚ)
  mz : List (Option ℚ)
  rt : List ℚ
  first_scan : ℕ
deriving DecidableEq

/-- State of `_RoiProcessor` (lcms.py lines 1009-1022): the zipped
parallel arrays, the scan counter `index`, the `temp_roi_dict` table,
the finished `roi` list and the configuration fields.  The reduce
callables (`self._mz_reduce`, `self._spint_reduce`) are passed to `add`
explicitly instead of being stored, so that the state stays a first
order datum. -/
structure RoiProcessor where
  traces : List TraceSlot
  index : ℕ
  tempRoiDict : List (ℕ × TempRoi)
  roi : List Roi
  maxMissing : ℕ
  minLength : ℕ
  minIntensity : ℚ
  tolerance : ℚ
  multipleMatch : String
deriving DecidableEq

/-- Result record of `_match_mz` (lcms.py lines 1160-1169): matched
trace indices with the matched m/z and intensity values, plus the
residual unmatched (m/z, intensity) pairs. -/
structure MatchResult where
  match_index : List ℕ
  mz_match : List ℚ
  sp_match : List ℚ
  mz_no_match : List ℚ
  sp_no_match : List ℚ
deriving DecidableEq

/-- Leftmost position of the minimum of a list (semantics of
`np.argmin`: ties resolved to the first occurrence); `0` on `[]`. -/
def listArgmin : List ℚ → ℕ
  | [] => 0
  | [_] => 0
  | x :: y :: t =>
    if (y :: t).getD (listArgmin (y :: t)) 0 < x then listArgmin (y :: t) + 1 else 0

/-- Modelled from the spec: `find_closest` is imported from the
repository's `utils` module, which is not among the given sources; the
spec (§4.2 step 1) says every incoming peak is assigned the index of its
nearest active trace in the sorted mean-m/z array.  Nearest index by
absolute m/z difference, ties to the lowest index; `none` on an empty
trace array (where a nearest index does not exist and the source code
raises). -/
def find_closest (xs : List ℚ) (q : ℚ) : Option ℕ :=
  match xs with
  | [] => none
  | _ :: _ => some (listArgmin (xs.map fun x => |x - q|))

/-- Vectorised `find_closest(mz1, mz2)` (lcms.py line 1171): one nearest
index per incoming peak. -/
def find_closest_list (mz1 : List ℚ) : List ℚ → Option (List ℕ)
  | [] => some []
  | q :: qs =>
    match find_closest mz1 q, find_closest_list mz1 qs with
    | some i, some is => some (i :: is)
    | _, _ => none

/-- Source `dmz = np.abs(mz1[closest_index] - mz2)` (lcms.py line
1172). -/
def dmzOf (mz1 : List ℚ) : List ℕ → List ℚ → List ℚ
  | i :: is, q :: qs => |mz1.getD i 0 - q| :: dmzOf mz1 is qs
  | _, _ => []

/-- Numpy boolean-mask indexing `xs[mask]`. -/
def maskFilter {α : Type} : List Bool → List α → List α
  | true :: ms, x :: xs => x :: maskFilter ms xs
  | false :: ms, _ :: xs => maskFilter ms xs
  | _, _ => []

/-- Numpy fancy assignment `mask[idxs] = True` (lcms.py line 1207). -/
def setTrue (m : List Bool) : List ℕ → List Bool
  | [] => m
  | i :: is => setTrue (m.set i true) is

/-- Numpy fancy assignment `xs[positions] = values` for rational
arrays, given as (position, value) pairs (lcms.py lines 1208-1209 and
1215-1216). -/
def applyReps (l : List ℚ) : List (ℕ × ℚ) → List ℚ
  | [] => l
  | (p, v) :: rest => applyReps (l.set p v) rest

/-- Position of the first occurrence of `v` (the `return_index` part of
`np.unique`, lcms.py lines 1178-1180); length of the list if absent. -/
def firstIdx (v : ℕ) : List ℕ → ℕ
  | [] => 0
  | x :: xs => if x = v then 0 else firstIdx v xs + 1

/-- Occurrence count of `v` (the `return_counts` part of `np.unique`,
lcms.py lines 1178-1180). -/
def countVal (v : ℕ) : List ℕ → ℕ
  | [] => 0
  | x :: xs => (if x = v then 1 else 0) + countVal v xs

/-- Insertion into a strictly sorted list, skipping duplicates. -/
def insertSortedDistinct (v : ℕ) : List ℕ → List ℕ
  | [] => [v]
  | x :: xs =>
    if v = x then x :: xs
    else if v < x then v :: x :: xs
    else x :: insertSortedDistinct v xs

/-- Sorted distinct values of a list (the value part of `np.unique`,
lcms.py lines 1178-1183). -/
def uniqueVals : List ℕ → List ℕ
  | [] => []
  | x :: xs => insertSortedDistinct x (uniqueVals xs)

/-- Selection of the traces that received more than one peak
(`count_index > 1`, lcms.py lines 1188-1193): walks the parallel
`first_index` and `count_index` lists, emitting
(position in `unique`, first occurrence, count) triples. -/
def dupGroupsAux : ℕ → List ℕ → List ℕ → List (ℕ × ℕ × ℕ)
  | _, [], _ => []
  | _, _ :: _, [] => []
  | p, i :: is, c :: cs =>
    if 1 < c then (p, i, c) :: dupGroupsAux (p + 1) is cs
    else dupGroupsAux (p + 1) is cs

/-- Resolution of one multiple-match group under the `closest` policy
(lcms.py lines 1198-1206): `win` is the absolute position (in the
filtered matched-peak arrays) of the contender with minimal |Δm/z|
(`np.argmin(dmz[match_mask][index:(index+count)]) + index`), `mzRep` /
`spRep` the winning values, and `rm` the remaining positions of the
block (`np.setdiff1d(np.arange(index, index + count), closest)`). -/
structure GroupRes where
  pos : ℕ
  win : ℕ
  mzRep : ℚ
  spRep : ℚ
  rm : List ℕ
deriving DecidableEq

def resolveGroup (dmzM mzM spM : List ℚ) (g : ℕ × ℕ × ℕ) : GroupRes :=
  let win := listArgmin ((dmzM.drop g.2.1).take g.2.2) + g.2.1
  ⟨g.1, win, mzM.getD win 0, spM.getD win 0,
    (List.range' g.2.1 g.2.2).filter (fun j => j != win)⟩

/-- Source `match_mask = (dmz <= tolerance)` (lcms.py line 1173). -/
def matchMaskOf (mz1 mz2 : List ℚ) (tol : ℚ) (ci : List ℕ) : List Bool :=
  (dmzOf mz1 ci mz2).map fun d => decide (d ≤ tol)

/-- Source `match_index = closest_index[match_mask]` (lcms.py line
1175): the trace index assigned to each in-tolerance peak, in scan
order. -/
def matchIdxOf (mz1 mz2 : List ℚ) (tol : ℚ) (ci : List ℕ) : List ℕ :=
  maskFilter (matchMaskOf mz1 mz2 tol ci) ci

/-- Source `unique` of `np.unique(match_index)` (lcms.py lines
1178-1183). -/
def uniqueOf (mz1 mz2 : List ℚ) (tol : ℚ) (ci : List ℕ) : List ℕ :=
  uniqueVals (matchIdxOf mz1 mz2 tol ci)

/-- Source `first_index` of `np.unique` (lcms.py lines 1178-1180). -/
def firstIdxOf (mz1 mz2 : List ℚ) (tol : ℚ) (ci : List ℕ) : List ℕ :=
  (uniqueOf mz1 mz2 tol ci).map fun v => firstIdx v (matchIdxOf mz1 mz2 tol ci)

/-- Source `count_index` of `np.unique` (lcms.py lines 1178-1180). -/
def countOf (mz1 mz2 : List ℚ) (tol : ℚ) (ci : List ℕ) : List ℕ :=
  (uniqueOf mz1 mz2 tol ci).map fun v => countVal v (matchIdxOf mz1 mz2 tol ci)

/-- Filtered matched m/z values `mz2[match_mask]` (lcms.py line
1185). -/
def mzMOf (mz1 mz2 : List ℚ) (tol : ℚ) (ci : List ℕ) : List ℚ :=
  maskFilter (matchMaskOf mz1 mz2 tol ci) mz2

/-- Filtered matched intensities `sp2[match_mask]` (lcms.py line
1184). -/
def spMOf (mz1 mz2 sp2 : List ℚ) (tol : ℚ) (ci : List ℕ) : List ℚ :=
  maskFilter (matchMaskOf mz1 mz2 tol ci) sp2

/-- Filtered |Δm/z| values `dmz[match_mask]` (lcms.py line 1201). -/
def dmzMOf (mz1 mz2 : List ℚ) (tol : ℚ) (ci : List ℕ) : List ℚ :=
  maskFilter (matchMaskOf mz1 mz2 tol ci) (dmzOf mz1 ci mz2)

/-- Source `mz_match = mz2[match_mask][first_index]` (lcms.py line
1185): one matched m/z per unique trace, initially the first
occurrence. -/
def baseMzMatchOf (mz1 mz2 : List ℚ) (tol : ℚ) (ci : List ℕ) : List ℚ :=
  (firstIdxOf mz1 mz2 tol ci).map fun i => (mzMOf mz1 mz2 tol ci).getD i 0

/-- Source `sp_match = sp2[match_mask][first_index]` (lcms.py line
1184). -/
def baseSpMatchOf (mz1 mz2 sp2 : List ℚ) (tol : ℚ) (ci : List ℕ) : List ℚ :=
  (firstIdxOf mz1 mz2 tol ci).map fun i => (spMOf mz1 mz2 sp2 tol ci).getD i 0

/-- Multiple-match groups (`count_index > 1`, lcms.py lines
1188-1193). -/
def dupGroupsOf (mz1 mz2 : List ℚ) (tol : ℚ) (ci : List ℕ) : List (ℕ × ℕ × ℕ) :=
  dupGroupsAux 0 (firstIdxOf mz1 mz2 tol ci) (countOf mz1 mz2 tol ci)

/-- Per-group resolutions under the `closest` policy (lcms.py lines
1195-1206). -/
def resolvedOf (mz1 mz2 sp2 : List ℚ) (tol : ℚ) (ci : List ℕ) : List GroupRes :=
  (dupGroupsOf mz1 mz2 tol ci).map
    (resolveGroup (dmzMOf mz1 mz2 tol ci) (mzMOf mz1 mz2 tol ci)
      (spMOf mz1 mz2 sp2 tol ci))

/-- Final no-match mask under the `closest` policy:
`no_match_mask[rm_index] = True` (lcms.py line 1207).  Note the source
applies the removal positions, which live in the coordinates of the
filtered matched-peak arrays, directly to the full-scan mask. -/
def noMaskClosestOf (mz1 mz2 sp2 : List ℚ) (tol : ℚ) (ci : List ℕ) : List Bool :=
  setTrue ((matchMaskOf mz1 mz2 tol ci).map (!·))
    ((resolvedOf mz1 mz2 sp2 tol ci).map (fun r => r.rm)).flatten

/-- Outputs of `_match_mz` under the `closest` policy (lcms.py lines
1194-1209 and 1221-1223).  With no multiple-match group the group list
is empty, no replacement happens and the mask is untouched, which is
also the behaviour of the source when `first_index.size == 0`. -/
def closestPipeline (mz1 mz2 sp2 : List ℚ) (tol : ℚ) (ci : List ℕ) : MatchResult :=
  ⟨uniqueOf mz1 mz2 tol ci,
    applyReps (baseMzMatchOf mz1 mz2 tol ci)
      ((resolvedOf mz1 mz2 sp2 tol ci).map fun r => (r.pos, r.mzRep)),
    applyReps (baseSpMatchOf mz1 mz2 sp2 tol ci)
      ((resolvedOf mz1 mz2 sp2 tol ci).map fun r => (r.pos, r.spRep)),
    maskFilter (noMaskClosestOf mz1 mz2 sp2 tol ci) mz2,
    maskFilter (noMaskClosestOf mz1 mz2 sp2 tol ci) sp2⟩

/-- Outputs of `_match_mz` under the `reduce` policy (lcms.py lines
1210-1216 and 1221-1223): each group's contenders are combined with the
configured reduce callables; the no-match mask is left untouched. -/
def reducePipeline (mz1 mz2 sp2 : List ℚ) (tol : ℚ) (ci : List ℕ)
    (mz_reduce sp_reduce : List ℚ → ℚ) : MatchResult :=
  ⟨uniqueOf mz1 mz2 tol ci,
    applyReps (baseMzMatchOf mz1 mz2 tol ci)
      ((dupGroupsOf mz1 mz2 tol ci).map fun g =>
        (g.1, mz_reduce (((mzMOf mz1 mz2 tol ci).drop g.2.1).take g.2.2))),
    applyReps (baseSpMatchOf mz1 mz2 sp2 tol ci)
      ((dupGroupsOf mz1 mz2 tol ci).map fun g =>
        (g.1, sp_reduce (((spMOf mz1 mz2 sp2 tol ci).drop g.2.1).take g.2.2))),
    maskFilter ((matchMaskOf mz1 mz2 tol ci).map (!·)) mz2,
    maskFilter ((matchMaskOf mz1 mz2 tol ci).map (!·)) sp2⟩

/-- Source `_match_mz(mz1, mz2, sp2, tolerance, mode, mz_reduce,
sp_reduce)` (lcms.py lines 1137-1223).  When no trace receives several
peaks the branch on `mode` is never reached (the source guards it with
`first_index.size > 0`), and the outputs coincide with
`closestPipeline`, whose group list is then empty; with groups present,
an unrecognised mode raises (`none`). -/
def match_mz (mz1 mz2 sp2 : List ℚ) (tolerance : ℚ) (mode : String)
    (mz_reduce sp_reduce : List ℚ → ℚ) : Option MatchResult :=
  match find_closest_list mz1 mz2 with
  | none => none
  | some ci =>
    if dupGroupsOf mz1 mz2 tolerance ci = [] then
      some (closestPipeline mz1 mz2 sp2 tolerance ci)
    else if mode = "closest" then
      some (closestPipeline mz1 mz2 sp2 tolerance ci)
    else if mode = "reduce" then
      some (reducePipeline mz1 mz2 sp2 tolerance ci mz_reduce sp_reduce)
    else none

/-- Default reduce callable `np.mean` (lcms.py lines 997-998). -/
def np_mean (l : List ℚ) : ℚ := l.sum / l.length

/-- Default reduce callable `np.sum` (lcms.py lines 1004-1005). -/
def np_sum (l : List ℚ) : ℚ := l.sum

/-- Seed arrays carry their numpy shape so that the rank-1 check of the
constructor (`len(mz_seed.shape) != 1`) is expressible. -/
structure NDArray where
  shape : List ℕ
  data : List ℚ
deriving DecidableEq

/-- Initial trace slots built from the seed m/z array: `mz_mean =
mz_seed.copy()`, `roi_index = np.arange(mz_seed.size)`, zeros elsewhere
(lcms.py lines 1009-1013), zipped into records with an explicit position
counter playing the role of `np.arange`. -/
def seedTraces : List ℚ → ℕ → List TraceSlot
  | [], _ => []
  | m :: ms, i => ⟨m, 0, 0, 0, i⟩ :: seedTraces ms (i + 1)

/-- Initial `temp_roi_dict = {x: make_empty_temp_roi() for x in
roi_index}` (lcms.py line 1015). -/
def seedDict : ℕ → ℕ → List (ℕ × TempRoi)
  | _, 0 => []
  | i, n + 1 => (i, make_empty_temp_roi) :: seedDict (i + 1) n

/-- Source `_RoiProcessor.__init__` (lcms.py lines 989-1022): raises
`ValueError` when the seed array is not rank 1 or the multiple-match
mode string is unrecognised; otherwise builds the initial state.  No
other validation is performed. -/
def RoiProcessor.init (mz_seed : NDArray) (max_missing : ℕ) (min_length : ℕ)
    (min_intensity : ℚ) (tolerance : ℚ) (multiple_match : String) :
    Except String RoiProcessor :=
  if mz_seed.shape.length ≠ 1 then
    Except.error "array must be a vector"
  else if ¬ (multiple_match = "closest" ∨ multiple_match = "reduce") then
    Except.error "Valid modes are closest or reduce"
  else
    Except.ok
      { traces := seedTraces mz_seed.data 0
        index := 0
        tempRoiDict := seedDict 0 mz_seed.data.length
        roi := []
        maxMissing := max_missing
        minLength := min_length
        minIntensity := min_intensity
        tolerance := tolerance
        multipleMatch := multiple_match }

/-- First matched (m/z, intensity) pair assigned to trace position `i`
in the matched triple list (the matched trace indices are the distinct
`unique` values, so at most one triple mentions a position). -/
def lookupMatch (triples : List (ℕ × ℚ × ℚ)) (i : ℕ) : Option (ℚ × ℚ) :=
  (triples.find? fun t => t.1 == i).map fun t => t.2

/-- Per-slot update of one `add` call (lcms.py lines 1040-1050) for the
slot at position `i`: a matched slot gets `length + 1`, `n_missing = 0`
(incremented then reset), `max_intensity = max(old, sp)` and — unless
`targeted` — the incremental mean
`(mz_mean * length_before + mz) / (length_before + 1)`; an unmatched
slot only gets `n_missing + 1`. -/
def matchSlot (triples : List (ℕ × ℚ × ℚ)) (targeted : Bool) (i : ℕ)
    (t : TraceSlot) : TraceSlot :=
  match lookupMatch triples i with
  | some (km, ks) =>
    { t with
      mzMean := if targeted then t.mzMean
                else (t.mzMean * t.length + km) / ((t.length : ℚ) + 1)
      nMissing := 0
      length := t.length + 1
      maxIntensity := max t.maxIntensity ks }
  | none => { t with nMissing := t.nMissing + 1 }

/-- Vectorised slot update of `add` over all positions (lcms.py lines
1040-1050). -/
def matchUpdate (triples : List (ℕ × ℚ × ℚ)) (targeted : Bool) :
    List TraceSlot → ℕ → List TraceSlot
  | [], _ => []
  | t :: ts, i => matchSlot triples targeted i t :: matchUpdate triples targeted ts (i + 1)

/-- Appending one sample to the `TempRoi` stored under `key`:
`k_temp_roi.mz.append(k_mz)` etc. (lcms.py lines 1035-1038); `none`
models the `KeyError` on a missing key. -/
def appendSample : List (ℕ × TempRoi) → ℕ → ℚ → ℚ → ℕ → Option (List (ℕ × TempRoi))
  | [], _, _, _, _ => none
  | (k, t) :: rest, key, m, s, idx =>
    if k = key then
      some ((k, ⟨t.mz ++ [m], t.sp ++ [s], t.scan ++ [idx]⟩) :: rest)
    else
      (appendSample rest key m s idx).map fun d => (k, t) :: d

/-- Loop `for k, k_mz, k_sp in zip(match_index, mz_match, sp_match)`
(lcms.py lines 1034-1038): each matched trace's `TempRoi` (looked up
through `roi_index[k]`) receives the matched sample at the current scan
index. -/
def appendMatches (traces : List TraceSlot) (idx : ℕ) :
    List (ℕ × TempRoi) → List (ℕ × ℚ × ℚ) → Option (List (ℕ × TempRoi))
  | d, [] => some d
  | d, (k, km, ks) :: rest =>
    match traces[k]? with
    | none => none
    | some slot =>
      match appendSample d slot.roiIndex km ks idx with
      | none => none
      | some d1 => appendMatches traces idx d1 rest

/-- Ordering of trace slots by mean m/z, the key of the
`np.argsort(mz_mean_tmp)` re-sort in `extend` (lcms.py line 1098). -/
def slotLE (a b : TraceSlot) : Prop := a.mzMean ≤ b.mzMean

instance : DecidableRel slotLE :=
  fun a b => inferInstanceAs (Decidable (a.mzMean ≤ b.mzMean))

instance : IsTotal TraceSlot slotLE := ⟨fun a b => le_total a.mzMean b.mzMean⟩

instance : IsTrans TraceSlot slotLE := ⟨fun _ _ _ h h2 => le_trans h h2⟩

/-- New trace slots spawned from unmatched peaks (lcms.py lines
1094-1104): fresh identities `np.arange(mz.size) + max_index + 1`,
`n_missing = 0`, `length = 1`, `max_intensity = 0`. -/
def spawnSlots (base : ℕ) : List ℚ → List TraceSlot
  | [] => []
  | m :: ms => ⟨m, 0, 1, 0, base⟩ :: spawnSlots (base + 1) ms

/-- New single-sample `TempRoi` entries for spawned traces (lcms.py
lines 1106-1108). -/
def spawnDict (base idx : ℕ) : List ℚ → List ℚ → List (ℕ × TempRoi)
  | m :: ms, s :: ss => (base, ⟨[m], [s], [idx]⟩) :: spawnDict (base + 1) idx ms ss
  | _, _ => []

/-- Source `_RoiProcessor.extend` (lcms.py lines 1092-1113): computes
`max_index = self.roi_index.max()` (raising — `none` — on an empty
active set), appends a fresh slot per unmatched peak, registers their
single-sample `TempRoi`s, and re-sorts all parallel arrays by mean m/z
(`np.argsort`; a stable sort of the zipped records is observationally
equal, since the permutation is applied to every array at once). -/
def RoiProcessor.extend (s : RoiProcessor) (mz sp : List ℚ) : Option RoiProcessor :=
  match (s.traces.map fun t => t.roiIndex).max? with
  | none => none
  | some maxIndex =>
    some
      { s with
        traces := List.insertionSort slotLE (s.traces ++ spawnSlots (maxIndex + 1) mz)
        tempRoiDict := s.tempRoiDict ++ spawnDict (maxIndex + 1) s.index mz sp }

/-- Source `_RoiProcessor.add` (lcms.py lines 1024-1052): match the
scan's peaks, append matched samples to their `TempRoi`s, update the
parallel arrays, then — unless `targeted` — spawn new traces from the
unmatched peaks via `extend`; finally advance the scan counter. -/
def RoiProcessor.add (s : RoiProcessor) (mz sp : List ℚ) (targeted : Bool)
    (mz_reduce sp_reduce : List ℚ → ℚ) : Option RoiProcessor :=
  match match_mz (s.traces.map fun t => t.mzMean) mz sp s.tolerance
      s.multipleMatch mz_reduce sp_reduce with
  | none => none
  | some r =>
    match appendMatches s.traces s.index s.tempRoiDict
        (r.match_index.zip (r.mz_match.zip r.sp_match)) with
    | none => none
    | some d1 =>
      if targeted then
        some { s with
          traces := matchUpdate (r.match_index.zip (r.mz_match.zip r.sp_match))
              targeted s.traces 0
          tempRoiDict := d1
          index := s.index + 1 }
      else
        match RoiProcessor.extend
            { s with
              traces := matchUpdate (r.match_index.zip (r.mz_match.zip r.sp_match))
                  targeted s.traces 0
              tempRoiDict := d1 } r.mz_no_match r.sp_no_match with
        | none => none
        | some s2 => some { s2 with index := s2.index + 1 }

/-- Numpy scatter assignment `dense[tmp_index] = values` (lcms.py lines
1235-1236): later assignments overwrite earlier ones; an out-of-range
position is ignored by `List.set` (unreachable for the strictly
increasing scan lists produced by the engine). -/
def scatter (base : List (Option ℚ)) : List ℕ → List ℚ → List (Option ℚ)
  | i :: is, v :: vs => scatter (base.set i (some v)) is vs
  | _, _ => base

/-- Source `tmp_roi_to_roi` (lcms.py lines 1226-1238): spans
`[first_scan, last_scan]`, allocates NaN-filled dense arrays of length
`last_scan + 1 - first_scan`, scatters the recorded m/z and intensity
values at offsets `scan - first_scan`, and slices the retention-time
array (`rt[first_scan:last_scan + 1]`, clamped like a numpy slice);
`none` models the `IndexError` on an empty scan list. -/
def tmp_roi_to_roi (tmp : TempRoi) (rt : List ℚ) : Option Roi :=
  match tmp.scan with
  | [] => none
  | s0 :: _ =>
    let last := tmp.scan.getLastD s0
    let size := last + 1 - s0
    let base : List (Option ℚ) := List.replicate size none
    let offsets := tmp.scan.map fun s => s - s0
    some
      { spint := scatter base offsets tmp.sp
        mz := scatter base offsets tmp.mz
        rt := (rt.drop s0).take size
        first_scan := s0 }

/-- Source `is_completed = self.n_missing > self.max_missing` (lcms.py
line 1060). -/
def isCompleted (maxMissing : ℕ) (t : TraceSlot) : Bool :=
  decide (maxMissing < t.nMissing)

/-- Source `is_valid_roi = (length >= min_length) & (max_intensity >=
min_intensity)` (lcms.py lines 1063-1064). -/
def isValidRoi (minLength : ℕ) (minIntensity : ℚ) (t : TraceSlot) : Bool :=
  decide (minLength ≤ t.length) && decide (minIntensity ≤ t.maxIntensity)

/-- Source `self.temp_roi_dict.pop(roi_ind)` (lcms.py line 1070):
removes and returns the entry under the key; `none` models the
`KeyError` on a missing key. -/
def popAssoc : List (ℕ × TempRoi) → ℕ → Option (TempRoi × List (ℕ × TempRoi))
  | [], _ => none
  | (k, t) :: rest, key =>
    if k = key then some (t, rest)
    else (popAssoc rest key).map fun p => (p.1, (k, t) :: p.2)

/-- Emission loop of `append_to_roi` (lcms.py lines 1067-1073): for each
completed trace, pop its `TempRoi`; if the trace is valid, densify it
and append the ROI to the output list, otherwise discard it. -/
def emitCompleted (minLength : ℕ) (minIntensity : ℚ) (rt : List ℚ) :
    List TraceSlot → List (ℕ × TempRoi) → List Roi →
    Option (List (ℕ × TempRoi) × List Roi)
  | [], d, acc => some (d, acc)
  | t :: ts, d, acc =>
    match popAssoc d t.roiIndex with
    | none => none
    | some p =>
      if isValidRoi minLength minIntensity t then
        match tmp_roi_to_roi p.1 rt with
        | none => none
        | some r => emitCompleted minLength minIntensity rt ts p.2 (acc ++ [r])
      else emitCompleted minLength minIntensity rt ts p.2 acc

/-- Targeted-mode slot reset of `append_to_roi` (lcms.py lines
1074-1082): every completed slot keeps its position and mean m/z but has
`n_missing`, `length` and `max_intensity` zeroed and receives the next
fresh identity `base + c`, where `c` counts the completed slots already
reset (`new_indices = np.arange(max_roi_ind + 1, max_roi_ind + 1 +
n_completed)` assigned positionally). -/
def resetCompleted (maxMissing base : ℕ) : List TraceSlot → ℕ → List TraceSlot
  | [], _ => []
  | t :: ts, c =>
    if isCompleted maxMissing t then
      { t with nMissing := 0, length := 0, maxIntensity := 0, roiIndex := base + c }
        :: resetCompleted maxMissing base ts (c + 1)
    else t :: resetCompleted maxMissing base ts c

/-- Fresh empty `TempRoi` entries for the reset slots (lcms.py lines
1080-1084). -/
def freshDict (base : ℕ) : ℕ → List (ℕ × TempRoi)
  | 0 => []
  | n + 1 => (base, make_empty_temp_roi) :: freshDict (base + 1) n

/-- Source `_RoiProcessor.append_to_roi` (lcms.py lines 1054-1090):
emits the completed-and-valid traces as ROIs, then either resets the
completed slots in place (targeted) or removes them from all parallel
arrays (untargeted). -/
def RoiProcessor.append_to_roi (s : RoiProcessor) (rt : List ℚ)
    (targeted : Bool) : Option RoiProcessor :=
  match emitCompleted s.minLength s.minIntensity rt
      (s.traces.filter (isCompleted s.maxMissing)) s.tempRoiDict s.roi with
  | none => none
  | some dr =>
    if targeted then
      match (s.traces.map fun t => t.roiIndex).max? with
      | none => none
      | some maxRoiInd =>
        some
          { s with
            traces := resetCompleted s.maxMissing (maxRoiInd + 1) s.traces 0
            tempRoiDict :=
              dr.1 ++ freshDict (maxRoiInd + 1)
                (s.traces.filter (isCompleted s.maxMissing)).length
            roi := dr.2 }
    else
      some
        { s with
          traces := s.traces.filter fun t => ! isCompleted s.maxMissing t
          tempRoiDict := dr.1
          roi := dr.2 }

/-- Source `_RoiProcessor.flag_as_completed` (lcms.py lines 1115-1116):
`self.n_missing[:] = self.max_missing + 1`. -/
def RoiProcessor.flag_as_completed (s : RoiProcessor) : RoiProcessor :=
  { s with traces := s.traces.map fun t => { t with nMissing := s.maxMissing + 1 } }

/-- One scan of the spectrum source: retention time and the ascending
(m/z, intensity) arrays. -/
structure Scan where
  rt : ℚ
  mz : List ℚ
  sp : List ℚ
deriving DecidableEq

/-- Retention-time array as seen inside the driver loop: `rt =
np.zeros(size)` filled one scan at a time (lcms.py lines 1317 and 1326),
so the entries beyond the scans seen so far are still zero. -/
def rtFill (rts : List ℚ) (size : ℕ) : List ℚ :=
  rts ++ List.replicate (size - rts.length) 0

/-- Driver loop of `make_roi` (lcms.py lines 1324-1330): per scan, fill
the retention time, call `add`, call `append_to_roi`, and assert the
sorted-mean-m/z invariant `(np.diff(processor.mz_mean) >= 0).all()`; a
failing assertion aborts the run (`none`). -/
def make_roi_loop (targeted : Bool) (size : ℕ) (mz_reduce sp_reduce : List ℚ → ℚ) :
    List Scan → RoiProcessor × List ℚ → Option (RoiProcessor × List ℚ)
  | [], p => some p
  | scan :: rest, (s, rts) =>
    match s.add scan.mz scan.sp targeted mz_reduce sp_reduce with
    | none => none
    | some s1 =>
      match s1.append_to_roi (rtFill (rts ++ [scan.rt]) size) targeted with
      | none => none
      | some s2 =>
        if List.Chain' (fun a b : ℚ => a ≤ b) (s2.traces.map fun t => t.mzMean) then
          make_roi_loop targeted size mz_reduce sp_reduce rest (s2, rts ++ [scan.rt])
        else none

/-- Source `make_roi` (lcms.py lines 1241-1334) over an explicit list of
scans standing for the `[start, end)` range of spectra: seed selection
(first scan's peaks when untargeted, the supplied target list when
targeted), construction, the per-scan loop, and the final flush
(`flag_as_completed` followed by one untargeted `append_to_roi`). -/
def make_roi (scans : List Scan) (tolerance : ℚ) (max_missing min_length : ℕ)
    (min_intensity : ℚ) (multiple_match : String) (targeted_mz : Option NDArray)
    (mz_reduce sp_reduce : List ℚ → ℚ) : Option (List Roi) :=
  let seed : NDArray :=
    match targeted_mz with
    | some t => t
    | none => ⟨[(scans.headD ⟨0, [], []⟩).mz.length], (scans.headD ⟨0, [], []⟩).mz⟩
  let targeted := targeted_mz.isSome
  match RoiProcessor.init seed max_missing min_length min_intensity tolerance
      multiple_match with
  | Except.error _ => none
  | Except.ok s0 =>
    match make_roi_loop targeted scans.length mz_reduce sp_reduce scans (s0, []) with
    | none => none
    | some (s, rts) =>
      match (s.flag_as_completed).append_to_roi (rtFill rts scans.length) false with
      | none => none
      | some s1 => some s1.roi

/-! Concrete states and inputs used by the witness and counterexample
theorems below.  Each constant is named after the claim exercising it. -/

/-- Engine state produced by `RoiProcessor.init ⟨[1], [10]⟩ 1 2 0 1
"closest"`. -/
def c1_state : RoiProcessor :=
  { traces := [⟨10, 0, 0, 0, 0⟩], index := 0,
    tempRoiDict := [(0, make_empty_temp_roi)], roi := [],
    maxMissing := 1, minLength := 2, minIntensity := 0,
    tolerance := 1, multipleMatch := "closest" }

/-- State of `c1_state` after one targeted scan with a single matching
peak (m/z 10, intensity 7) at retention time 0. -/
def c1_state1 : RoiProcessor :=
  { traces := [⟨10, 0, 1, 7, 0⟩], index := 1,
    tempRoiDict := [(0, ⟨[10], [7], [0]⟩)], roi := [],
    maxMissing := 1, minLength := 2, minIntensity := 0,
    tolerance := 1, multipleMatch := "closest" }

/-- State with one completed valid trace (slot 0) and one live trace
(slot 1), feeding the `append_to_roi` witness. -/
def c2_state : RoiProcessor :=
  { traces := [⟨10, 3, 2, 5, 0⟩, ⟨20, 0, 1, 1, 1⟩], index := 5,
    tempRoiDict := [(0, ⟨[10, 10], [5, 4], [0, 1]⟩), (1, ⟨[20], [1], [4]⟩)],
    roi := [],
    maxMissing := 1, minLength := 2, minIntensity := 1,
    tolerance := 1, multipleMatch := "closest" }

/-- State of `c2_state` after one untargeted `append_to_roi` with
retention times `[0, 1, 2, 3, 4]`: slot 0 is removed and emitted. -/
def c2_state1 : RoiProcessor :=
  { traces := [⟨20, 0, 1, 1, 1⟩], index := 5,
    tempRoiDict := [(1, ⟨[20], [1], [4]⟩)],
    roi := [⟨[some 5, some 4], [some 10, some 10], [0, 1], 0⟩],
    maxMissing := 1, minLength := 2, minIntensity := 1,
    tolerance := 1, multipleMatch := "closest" }

/-- Single-trace state feeding the mean-update witness of the `add`
formula. -/
def c3_state : RoiProcessor :=
  { traces := [⟨10, 0, 1, 4, 0⟩], index := 1,
    tempRoiDict := [(0, ⟨[10], [4], [0]⟩)], roi := [],
    maxMissing := 1, minLength := 2, minIntensity := 0,
    tolerance := 1, multipleMatch := "closest" }

/-- Targeted state with one completed trace, feeding the targeted
finalize-pass witness of the slot-reset behaviour. -/
def c6_state : RoiProcessor :=
  { traces := [⟨10, 5, 3, 7, 0⟩], index := 6,
    tempRoiDict := [(0, ⟨[10, 10, 10], [7, 1, 2], [0, 1, 2]⟩)], roi := [],
    maxMissing := 1, minLength := 1, minIntensity := 0,
    tolerance := 1, multipleMatch := "closest" }

/-- State of `c6_state` after one targeted `append_to_roi` with
retention times `[0, 1, 2, 3, 4, 5]`: the completed slot is emitted and
reset in place under the fresh identity 1. -/
def c6_state1 : RoiProcessor :=
  { traces := [⟨10, 0, 0, 0, 1⟩], index := 6,
    tempRoiDict := [(1, make_empty_temp_roi)],
    roi := [⟨[some 7, some 1, some 2], [some 10, some 10, some 10], [0, 1, 2], 0⟩],
    maxMissing := 1, minLength := 1, minIntensity := 0,
    tolerance := 1, multipleMatch := "closest" }

/-- Engine state produced by `RoiProcessor.init ⟨[1], [100]⟩ 1 2 0 1
"closest"`, feeding the untargeted spawn counterexample. -/
def c7_state : RoiProcessor :=
  { traces := [⟨100, 0, 0, 0, 0⟩], index := 0,
    tempRoiDict := [(0, make_empty_temp_roi)], roi := [],
    maxMissing := 1, minLength := 2, minIntensity := 0,
    tolerance := 1, multipleMatch := "closest" }

/-- State of `c7_state` after `extend [200] [10]`: the spawned slot has
`max_intensity = 0` while its `TempRoi` records intensity 10. -/
def c7_state1 : RoiProcessor :=
  { traces := [⟨100, 0, 0, 0, 0⟩, ⟨200, 0, 1, 0, 1⟩], index := 0,
    tempRoiDict := [(0, make_empty_temp_roi), (1, ⟨[200], [10], [0]⟩)],
    roi := [],
    maxMissing := 1, minLength := 2, minIntensity := 0,
    tolerance := 1, multipleMatch := "closest" }

/-- Closed trace with samples at scans 2 and 4 (a gap at scan 3),
feeding the densification witness. -/
def c8_tmp : TempRoi := ⟨[10, 11], [1, 2], [2, 4]⟩

/-- Empty-active-set state feeding the unrecoverable-`add` witness. -/
def c10_state : RoiProcessor :=
  { traces := [], index := 3,
    tempRoiDict := [], roi := [],
    maxMissing := 1, minLength := 2, minIntensity := 0,
    tolerance := 1, multipleMatch := "closest" }

/-! Helper lemmas about the slot-update primitives. -/

theorem matchSlot_mzMean_targeted (trip : List (ℕ × ℚ × ℚ)) (i : ℕ) (t : TraceSlot) :
    (matchSlot trip true i t).mzMean = t.mzMean := by
  unfold matchSlot
  rcases lookupMatch trip i with _ | ⟨km, ks⟩ <;> rfl

theorem matchSlot_roiIndex (trip : List (ℕ × ℚ × ℚ)) (targeted : Bool) (i : ℕ)
    (t : TraceSlot) : (matchSlot trip targeted i t).roiIndex = t.roiIndex := by
  unfold matchSlot
  rcases lookupMatch trip i with _ | ⟨km, ks⟩ <;> rfl

theorem matchUpdate_map_mzMean_targeted (trip : List (ℕ × ℚ × ℚ))
    (ts : List TraceSlot) (i : ℕ) :
    (matchUpdate trip true ts i).map (fun t => t.mzMean) =
      ts.map (fun t => t.mzMean) := by
  induction ts generalizing i with
  | nil => rfl
  | cons t ts ih => simp [matchUpdate, matchSlot_mzMean_targeted, ih]

theorem matchUpdate_map_roiIndex (trip : List (ℕ × ℚ × ℚ)) (targeted : Bool)
    (ts : List TraceSlot) (i : ℕ) :
    (matchUpdate trip targeted ts i).map (fun t => t.roiIndex) =
      ts.map (fun t => t.roiIndex) := by
  induction ts generalizing i with
  | nil => rfl
  | cons t ts ih => simp [matchUpdate, matchSlot_roiIndex, ih]

theorem matchUpdate_length (trip : List (ℕ × ℚ × ℚ)) (targeted : Bool)
    (ts : List TraceSlot) (i : ℕ) :
    (matchUpdate trip targeted ts i).length = ts.length := by
  induction ts generalizing i with
  | nil => rfl
  | cons t ts ih => simp [matchUpdate, ih]

theorem matchUpdate_getElem? (trip : List (ℕ × ℚ × ℚ)) (targeted : Bool)
    (ts : List TraceSlot) (i j : ℕ) :
    (matchUpdate trip targeted ts i)[j]? =
      (ts[j]?).map (matchSlot trip targeted (i + j)) := by
  induction ts generalizing i j with
  | nil => simp [matchUpdate]
  | cons t ts ih =>
    cases j with
    | zero => simp [matchUpdate]
    | succ j =>
      have h := ih (i + 1) j
      have harith : i + 1 + j = i + (j + 1) := by omega
      simp only [matchUpdate, List.getElem?_cons_succ, h, harith]

theorem resetCompleted_map_mzMean (mm base : ℕ) (ts : List TraceSlot) (c : ℕ) :
    (resetCompleted mm base ts c).map (fun t => t.mzMean) =
      ts.map (fun t => t.mzMean) := by
  induction ts generalizing c with
  | nil => rfl
  | cons t ts ih =>
    by_cases h : isCompleted mm t <;> simp [resetCompleted, h, ih]

theorem resetCompleted_length (mm base : ℕ) (ts : List TraceSlot) (c : ℕ) :
    (resetCompleted mm base ts c).length = ts.length := by
  induction ts generalizing c with
  | nil => rfl
  | cons t ts ih =>
    by_cases h : isCompleted mm t <;> simp [resetCompleted, h, ih]

theorem resetCompleted_getElem?_completed (mm base : ℕ) (ts : List TraceSlot)
    (c i : ℕ) (t : TraceSlot) (ht : ts[i]? = some t)
    (hc : isCompleted mm t = true) :
    ∃ k, c ≤ k ∧ k < c + (ts.filter (isCompleted mm)).length ∧
      (resetCompleted mm base ts c)[i]? =
        some { t with nMissing := 0, length := 0, maxIntensity := 0,
                      roiIndex := base + k } := by
  induction ts generalizing c i with
  | nil => simp at ht
  | cons a ts ih =>
    cases i with
    | zero =>
      simp only [List.getElem?_cons_zero, Option.some_inj] at ht
      subst ht
      refine ⟨c, le_refl c, ?_, ?_⟩
      · simp [List.filter_cons, hc]
      · simp [resetCompleted, hc]
    | succ i =>
      simp only [List.getElem?_cons_succ] at ht
      by_cases ha : isCompleted mm a
      · obtain ⟨k, hk1, hk2, hk3⟩ := ih (c + 1) i ht
        refine ⟨k, by omega, ?_, ?_⟩
        · simp only [List.filter_cons, ha, if_true, List.length_cons]
          omega
        · simp [resetCompleted, ha, hk3]
      · obtain ⟨k, hk1, hk2, hk3⟩ := ih c i ht
        refine ⟨k, hk1, ?_, ?_⟩
        · simp only [List.filter_cons, ha, if_false, Bool.false_eq_true]
          omega
        · simp [resetCompleted, ha, hk3]

theorem freshDict_mem (base n j : ℕ) (hj : j < n) :
    (base + j, make_empty_temp_roi) ∈ freshDict base n := by
  induction n generalizing base j with
  | zero => omega
  | succ n ih =>
    cases j with
    | zero => simp [freshDict]
    | succ j =>
      have h := ih (base + 1) j (by omega)
      have harith : base + (j + 1) = base + 1 + j := by omega
      rw [harith]
      exact List.mem_cons_of_mem _ h

theorem spawnSlots_getElem? (base : ℕ) (mz : List ℚ) (j : ℕ) (m : ℚ)
    (h : mz[j]? = some m) :
    (spawnSlots base mz)[j]? = some ⟨m, 0, 1, 0, base + j⟩ := by
  induction mz generalizing base j with
  | nil => simp at h
  | cons x xs ih =>
    cases j with
    | zero =>
      simp only [List.getElem?_cons_zero, Option.some_inj] at h
      subst h
      simp [spawnSlots]
    | succ j =>
      simp only [List.getElem?_cons_succ] at h
      have h2 := ih (base + 1) j h
      have harith : base + 1 + j = base + (j + 1) := by omega
      simp only [spawnSlots, List.getElem?_cons_succ, h2, harith]

theorem spawnDict_getElem? (base idx : ℕ) (mz sp : List ℚ) (j : ℕ) (m v : ℚ)
    (hm : mz[j]? = some m) (hv : sp[j]? = some v) :
    (spawnDict base idx mz sp)[j]? = some (base + j, ⟨[m], [v], [idx]⟩) := by
  induction mz generalizing base sp j with
  | nil => simp at hm
  | cons x xs ih =>
    cases sp with
    | nil => simp at hv
    | cons y ys =>
      cases j with
      | zero =>
        simp only [List.getElem?_cons_zero, Option.some_inj] at hm hv
        subst hm; subst hv
        simp [spawnDict]
      | succ j =>
        simp only [List.getElem?_cons_succ] at hm hv
        have h2 := ih (base + 1) ys j hm hv
        have harith : base + 1 + j = base + (j + 1) := by omega
        simp only [spawnDict, List.getElem?_cons_succ, h2, harith]

theorem extend_elim (s : RoiProcessor) (mz sp : List ℚ) (s' : RoiProcessor)
    (h : s.extend mz sp = some s') :
    ∃ maxIndex, (s.traces.map fun t => t.roiIndex).max? = some maxIndex ∧
      s' = { s with
        traces := List.insertionSort slotLE (s.traces ++ spawnSlots (maxIndex + 1) mz)
        tempRoiDict := s.tempRoiDict ++ spawnDict (maxIndex + 1) s.index mz sp } := by
  unfold RoiProcessor.extend at h
  split at h
  · exact absurd h (by simp)
  · rename_i maxIndex hmax
    exact ⟨maxIndex, hmax, by injection h with h2; exact h2.symm⟩

theorem add_untargeted_elim (s : RoiProcessor) (mz sp : List ℚ)
    (f g : List ℚ → ℚ) (s' : RoiProcessor)
    (h : s.add mz sp false f g = some s') :
    ∃ r d1 s2,
      match_mz (s.traces.map fun t => t.mzMean) mz sp s.tolerance
          s.multipleMatch f g = some r ∧
      appendMatches s.traces s.index s.tempRoiDict
          (r.match_index.zip (r.mz_match.zip r.sp_match)) = some d1 ∧
      RoiProcessor.extend
          { s with
            traces := matchUpdate (r.match_index.zip (r.mz_match.zip r.sp_match))
                false s.traces 0
            tempRoiDict := d1 } r.mz_no_match r.sp_no_match = some s2 ∧
      s' = { s2 with index := s2.index + 1 } := by
  unfold RoiProcessor.add at h
  split at h
  · exact absurd h (by simp)
  · rename_i r hr
    split at h
    · exact absurd h (by simp)
    · rename_i d1 hd1
      simp only [Bool.false_eq_true, if_false] at h
      split at h
      · exact absurd h (by simp)
      · rename_i s2 hs2
        exact ⟨r, d1, s2, hr, hd1, hs2, by injection h with h2; exact h2.symm⟩

theorem add_targeted_elim (s : RoiProcessor) (mz sp : List ℚ)
    (f g : List ℚ → ℚ) (s' : RoiProcessor)
    (h : s.add mz sp true f g = some s') :
    ∃ r d1,
      match_mz (s.traces.map fun t => t.mzMean) mz sp s.tolerance
          s.multipleMatch f g = some r ∧
      appendMatches s.traces s.index s.tempRoiDict
          (r.match_index.zip (r.mz_match.zip r.sp_match)) = some d1 ∧
      s' = { s with
        traces := matchUpdate (r.match_index.zip (r.mz_match.zip r.sp_match))
            true s.traces 0
        tempRoiDict := d1
        index := s.index + 1 } := by
  unfold RoiProcessor.add at h
  split at h
  · exact absurd h (by simp)
  · rename_i r hr
    split at h
    · exact absurd h (by simp)
    · rename_i d1 hd1
      simp only [if_true] at h
      exact ⟨r, d1, hr, hd1, by injection h with h2; exact h2.symm⟩

theorem append_untargeted_elim (s : RoiProcessor) (rt : List ℚ) (s' : RoiProcessor)
    (h : s.append_to_roi rt false = some s') :
    ∃ d1 roi1,
      emitCompleted s.minLength s.minIntensity rt
          (s.traces.filter (isCompleted s.maxMissing)) s.tempRoiDict s.roi =
        some (d1, roi1) ∧
      s' = { s with
        traces := s.traces.filter fun t => ! isCompleted s.maxMissing t
        tempRoiDict := d1
        roi := roi1 } := by
  unfold RoiProcessor.append_to_roi at h
  split at h
  · exact absurd h (by simp)
  · rename_i dr hp
    simp only [Bool.false_eq_true, if_false] at h
    exact ⟨dr.1, dr.2, hp, by injection h with h2; exact h2.symm⟩

theorem append_targeted_elim (s : RoiProcessor) (rt : List ℚ) (s' : RoiProcessor)
    (h : s.append_to_roi rt true = some s') :
    ∃ d1 roi1 maxRoiInd,
      emitCompleted s.minLength s.minIntensity rt
          (s.traces.filter (isCompleted s.maxMissing)) s.tempRoiDict s.roi =
        some (d1, roi1) ∧
      (s.traces.map fun t => t.roiIndex).max? = some maxRoiInd ∧
      s' = { s with
        traces := resetCompleted s.maxMissing (maxRoiInd + 1) s.traces 0
        tempRoiDict :=
          d1 ++ freshDict (maxRoiInd + 1)
            (s.traces.filter (isCompleted s.maxMissing)).length
        roi := roi1 } := by
  unfold RoiProcessor.append_to_roi at h
  split at h
  · exact absurd h (by simp)
  · rename_i dr hp
    simp only [if_true] at h
    split at h
    · exact absurd h (by simp)
    · rename_i maxRoiInd hmax
      exact ⟨dr.1, dr.2, maxRoiInd, hp, hmax, by injection h with h2; exact h2.symm⟩

theorem sorted_means_insertionSort (l : List TraceSlot) :
    List.Pairwise (fun a b : ℚ => a ≤ b)
      ((List.insertionSort slotLE l).map fun t => t.mzMean) := by
  have h : List.Pairwise slotLE (List.insertionSort slotLE l) :=
    List.sorted_insertionSort slotLE l
  exact (List.pairwise_map).2 h

theorem add_sorted_untargeted (s : RoiProcessor) (mz sp : List ℚ)
    (f g : List ℚ → ℚ) (s' : RoiProcessor)
    (h : s.add mz sp false f g = some s') :
    List.Pairwise (fun a b : ℚ => a ≤ b) (s'.traces.map fun t => t.mzMean) := by
  obtain ⟨r, d1, s2, hr, hd1, hext, hs'⟩ := add_untargeted_elim s mz sp f g s' h
  obtain ⟨mi, hmi, hs2⟩ := extend_elim _ _ _ _ hext
  subst hs'
  subst hs2
  exact sorted_means_insertionSort _

theorem add_means_targeted (s : RoiProcessor) (mz sp : List ℚ)
    (f g : List ℚ → ℚ) (s' : RoiProcessor)
    (h : s.add mz sp true f g = some s') :
    s'.traces.map (fun t => t.mzMean) = s.traces.map (fun t => t.mzMean) := by
  obtain ⟨r, d1, hr, hd1, hs'⟩ := add_targeted_elim s mz sp f g s' h
  subst hs'
  exact matchUpdate_map_mzMean_targeted _ _ _

theorem add_length_targeted (s : RoiProcessor) (mz sp : List ℚ)
    (f g : List ℚ → ℚ) (s' : RoiProcessor)
    (h : s.add mz sp true f g = some s') :
    s'.traces.length = s.traces.length := by
  obtain ⟨r, d1, hr, hd1, hs'⟩ := add_targeted_elim s mz sp f g s' h
  subst hs'
  exact matchUpdate_length _ _ _ _

theorem append_means_targeted (s : RoiProcessor) (rt : List ℚ) (s' : RoiProcessor)
    (h : s.append_to_roi rt true = some s') :
    s'.traces.map (fun t => t.mzMean) = s.traces.map (fun t => t.mzMean) := by
  obtain ⟨d1, roi1, mi, hp, hmax, hs'⟩ := append_targeted_elim s rt s' h
  subst hs'
  exact resetCompleted_map_mzMean _ _ _ _

theorem append_length_targeted (s : RoiProcessor) (rt : List ℚ) (s' : RoiProcessor)
    (h : s.append_to_roi rt true = some s') :
    s'.traces.length = s.traces.length := by
  obtain ⟨d1, roi1, mi, hp, hmax, hs'⟩ := append_targeted_elim s rt s' h
  subst hs'
  exact resetCompleted_length _ _ _ _

theorem append_sorted_untargeted (s : RoiProcessor) (rt : List ℚ) (s' : RoiProcessor)
    (h : s.append_to_roi rt false = some s')
    (hs : List.Pairwise (fun a b : ℚ => a ≤ b) (s.traces.map fun t => t.mzMean)) :
    List.Pairwise (fun a b : ℚ => a ≤ b) (s'.traces.map fun t => t.mzMean) := by
  obtain ⟨d1, roi1, hp, hs'⟩ := append_untargeted_elim s rt s' h
  subst hs'
  have hsub : (s.traces.filter (fun t => ! isCompleted s.maxMissing t)).Sublist s.traces :=
    List.filter_sublist s.traces
  exact hs.sublist (hsub.map fun t => t.mzMean)

theorem step_sorted (targeted : Bool) (s s1 s2 : RoiProcessor) (mz sp : List ℚ)
    (f g : List ℚ → ℚ) (rt : List ℚ)
    (hs : List.Pairwise (fun a b : ℚ => a ≤ b) (s.traces.map fun t => t.mzMean))
    (h1 : s.add mz sp targeted f g = some s1)
    (h2 : s1.append_to_roi rt targeted = some s2) :
    List.Pairwise (fun a b : ℚ => a ≤ b) (s2.traces.map fun t => t.mzMean) := by
  cases targeted with
  | false =>
    exact append_sorted_untargeted s1 rt s2 h2 (add_sorted_untargeted s mz sp f g s1 h1)
  | true =>
    rw [append_means_targeted s1 rt s2 h2, add_means_targeted s mz sp f g s1 h1]
    exact hs

theorem make_roi_loop_invariant (P : RoiProcessor → Prop) (targeted : Bool)
    (size : ℕ) (f g : List ℚ → ℚ)
    (hstep : ∀ s mz sp s1 rt s2, P s → s.add mz sp targeted f g = some s1 →
      s1.append_to_roi rt targeted = some s2 → P s2) :
    ∀ scans (s : RoiProcessor) (rts : List ℚ) (out : RoiProcessor × List ℚ),
      P s → make_roi_loop targeted size f g scans (s, rts) = some out → P out.1 := by
  intro scans
  induction scans with
  | nil =>
    intro s rts out hP h
    simp only [make_roi_loop, Option.some_inj] at h
    rw [← h]
    exact hP
  | cons scan rest ih =>
    intro s rts out hP h
    unfold make_roi_loop at h
    split at h
    · exact absurd h (by simp)
    · rename_i s1 h1
      split at h
      · exact absurd h (by simp)
      · rename_i s2 h2
        split at h
        · exact ih s2 (rts ++ [scan.rt]) out (hstep s scan.mz scan.sp s1 _ s2 hP h1 h2) h
        · exact absurd h (by simp)

theorem make_roi_loop_sorted (targeted : Bool) (size : ℕ) (f g : List ℚ → ℚ)
    (scans : List Scan) (s : RoiProcessor) (rts : List ℚ)
    (out : RoiProcessor × List ℚ)
    (hs : List.Pairwise (fun a b : ℚ => a ≤ b) (s.traces.map fun t => t.mzMean))
    (h : make_roi_loop targeted size f g scans (s, rts) = some out) :
    List.Pairwise (fun a b : ℚ => a ≤ b) (out.1.traces.map fun t => t.mzMean) :=
  make_roi_loop_invariant
    (fun s => List.Pairwise (fun a b : ℚ => a ≤ b) (s.traces.map fun t => t.mzMean))
    targeted size f g
    (fun s mz sp s1 rt s2 hP h1 h2 => step_sorted targeted s s1 s2 mz sp f g rt hP h1 h2)
    scans s rts out hs h

theorem seedTraces_map_mzMean (l : List ℚ) (i : ℕ) :
    (seedTraces l i).map (fun t => t.mzMean) = l := by
  induction l generalizing i with
  | nil => rfl
  | cons x xs ih => simp [seedTraces, ih]

theorem init_ok_elim (seed : NDArray) (mm ml : ℕ) (mi tol : ℚ) (pol : String)
    (s0 : RoiProcessor)
    (h : RoiProcessor.init seed mm ml mi tol pol = Except.ok s0) :
    s0 = { traces := seedTraces seed.data 0, index := 0,
           tempRoiDict := seedDict 0 seed.data.length, roi := [],
           maxMissing := mm, minLength := ml, minIntensity := mi,
           tolerance := tol, multipleMatch := pol } := by
  unfold RoiProcessor.init at h
  split at h
  · exact absurd h (by simp)
  · split at h
    · exact absurd h (by simp)
    · injection h with h2
      exact h2.symm

theorem popAssoc_mem (d : List (ℕ × TempRoi)) (k : ℕ) (tmp : TempRoi)
    (d' : List (ℕ × TempRoi)) (h : popAssoc d k = some (tmp, d')) :
    (k, tmp) ∈ d ∧ ∀ e ∈ d', e ∈ d := by
  induction d generalizing d' with
  | nil => simp [popAssoc] at h
  | cons a rest ih =>
    obtain ⟨ka, ta⟩ := a
    unfold popAssoc at h
    by_cases hk : ka = k
    · rw [if_pos hk] at h
      injection h with h2
      injection h2 with h3 h4
      subst h3
      subst h4
      subst hk
      exact ⟨List.mem_cons_self _ _, fun e he => List.mem_cons_of_mem _ he⟩
    · rw [if_neg hk] at h
      rw [Option.map_eq_some'] at h
      obtain ⟨p, hp, hpe⟩ := h
      obtain ⟨p1, p2⟩ := p
      injection hpe with h3 h4
      subst h3
      obtain ⟨hmem, hsub⟩ := ih p2 hp
      constructor
      · exact List.mem_cons_of_mem _ hmem
      · intro e he
        rw [← h4] at he
        rcases List.mem_cons.1 he with h5 | h5
        · rw [h5]; exact List.mem_cons_self _ _
        · exact List.mem_cons_of_mem _ (hsub e h5)

theorem emitCompleted_roi_length (mL : ℕ) (mI : ℚ) (rt : List ℚ)
    (ts : List TraceSlot) (d : List (ℕ × TempRoi)) (acc : List Roi)
    (d' : List (ℕ × TempRoi)) (out : List Roi)
    (h : emitCompleted mL mI rt ts d acc = some (d', out)) :
    out.length = acc.length + (ts.filter (isValidRoi mL mI)).length := by
  induction ts generalizing d acc with
  | nil =>
    simp only [emitCompleted, Option.some_inj] at h
    injection h with h1 h2
    simp [← h2]
  | cons t ts ih =>
    unfold emitCompleted at h
    split at h
    · exact absurd h (by simp)
    · rename_i p hp
      by_cases hv : isValidRoi mL mI t
      · rw [if_pos hv] at h
        split at h
        · exact absurd h (by simp)
        · rename_i r hr
          have := ih p.2 (acc ++ [r]) h
          simp [List.filter_cons, hv] at this ⊢
          omega
      · rw [if_neg hv] at h
        have := ih p.2 acc h
        simp [List.filter_cons, hv] at this ⊢
        omega

theorem emitCompleted_mem (mL : ℕ) (mI : ℚ) (rt : List ℚ)
    (ts : List TraceSlot) (d : List (ℕ × TempRoi)) (acc : List Roi)
    (d' : List (ℕ × TempRoi)) (out : List Roi)
    (h : emitCompleted mL mI rt ts d acc = some (d', out)) :
    ∀ r ∈ out, r ∈ acc ∨ ∃ t, t ∈ ts ∧ isValidRoi mL mI t = true ∧
      ∃ tmp, (t.roiIndex, tmp) ∈ d ∧ tmp_roi_to_roi tmp rt = some r := by
  induction ts generalizing d acc with
  | nil =>
    simp only [emitCompleted, Option.some_inj] at h
    injection h with h1 h2
    intro r hr
    left
    rw [h2]
    exact hr
  | cons t ts ih =>
    unfold emitCompleted at h
    split at h
    · exact absurd h (by simp)
    · rename_i p hp
      obtain ⟨hpm, hpsub⟩ := popAssoc_mem d t.roiIndex p.1 p.2 (by rw [hp])
      by_cases hv : isValidRoi mL mI t
      · rw [if_pos hv] at h
        split at h
        · exact absurd h (by simp)
        · rename_i r0 hr0
          intro r hr
          rcases ih p.2 (acc ++ [r0]) h r hr with hacc | ⟨t', ht', hv', tmp, htmp, hroi⟩
          · rcases List.mem_append.1 hacc with h5 | h5
            · exact Or.inl h5
            · right
              refine ⟨t, List.mem_cons_self _ _, hv, p.1, hpm, ?_⟩
              rw [hr0]
              simp only [List.mem_singleton] at h5
              rw [h5]
          · exact Or.inr ⟨t', List.mem_cons_of_mem _ ht', hv', tmp, hpsub _ htmp, hroi⟩
      · rw [if_neg hv] at h
        intro r hr
        rcases ih p.2 acc h r hr with hacc | ⟨t', ht', hv', tmp, htmp, hroi⟩
        · exact Or.inl hacc
        · exact Or.inr ⟨t', List.mem_cons_of_mem _ ht', hv', tmp, hpsub _ htmp, hroi⟩

theorem scatter_length (base : List (Option ℚ)) (idx : List ℕ) (vals : List ℚ) :
    (scatter base idx vals).length = base.length := by
  induction idx generalizing base vals with
  | nil => rfl
  | cons i is ih =>
    cases vals with
    | nil => rfl
    | cons v vs => simp [scatter, ih]

theorem scatter_getElem?_not_mem (base : List (Option ℚ)) (idx : List ℕ)
    (vals : List ℚ) (p : ℕ) (hp : p ∉ idx) :
    (scatter base idx vals)[p]? = base[p]? := by
  induction idx generalizing base vals with
  | nil => rfl
  | cons i is ih =>
    cases vals with
    | nil => rfl
    | cons v vs =>
      have hpi : i ≠ p := fun hc => hp (hc ▸ List.mem_cons_self i is)
      have h2 := ih (base.set i (some v)) vs (fun hc => hp (List.mem_cons_of_mem _ hc))
      simp only [scatter]
      rw [h2]
      simp [List.getElem?_set, hpi]

theorem scatter_getElem?_eq (base : List (Option ℚ)) (idx : List ℕ) (vals : List ℚ)
    (j p : ℕ) (v : ℚ) (hidx : idx[j]? = some p) (hval : vals[j]? = some v)
    (hnodup : idx.Nodup) (hlen : p < base.length) :
    (scatter base idx vals)[p]? = some (some v) := by
  induction idx generalizing base vals j with
  | nil => simp at hidx
  | cons i is ih =>
    cases vals with
    | nil => simp at hval
    | cons w ws =>
      cases j with
      | zero =>
        simp only [List.getElem?_cons_zero, Option.some_inj] at hidx hval
        subst hidx
        subst hval
        simp only [scatter]
        rw [scatter_getElem?_not_mem _ _ _ _ (List.nodup_cons.1 hnodup).1]
        simp [List.getElem?_set, hlen]
      | succ j =>
        simp only [List.getElem?_cons_succ] at hidx hval
        simp only [scatter]
        exact ih (base.set i (some w)) ws j hidx hval (List.nodup_cons.1 hnodup).2
          (by simpa using hlen)

theorem pairwise_lt_le_getLastD :
    ∀ (l : List ℕ) (d : ℕ), List.Pairwise (fun a b : ℕ => a < b) l →
      ∀ x ∈ l, x ≤ l.getLastD d := by
  intro l
  induction l with
  | nil => intro d h x hx; simp at hx
  | cons a t ih =>
    intro d h x hx
    rw [List.getLastD_cons]
    cases t with
    | nil =>
      simp only [List.mem_singleton] at hx
      have he : List.getLastD [] a = a := rfl
      omega
    | cons b t2 =>
      rcases List.mem_cons.1 hx with h1 | h1
      · have hab : a < b := (List.pairwise_cons.1 h).1 b (List.mem_cons_self _ _)
        have hb := ih a h.of_cons b (List.mem_cons_self _ _)
        omega
      · exact ih a h.of_cons x h1

theorem pairwise_lt_head_le (s0 : ℕ) (tl : List ℕ) (x : ℕ)
    (h : List.Pairwise (fun a b : ℕ => a < b) (s0 :: tl)) (hx : x ∈ s0 :: tl) :
    s0 ≤ x := by
  rcases List.mem_cons.1 hx with h1 | h1
  · omega
  · exact le_of_lt ((List.pairwise_cons.1 h).1 x h1)

theorem offsets_nodup (s0 : ℕ) (l : List ℕ)
    (h : List.Pairwise (fun a b : ℕ => a < b) l) (hge : ∀ x ∈ l, s0 ≤ x) :
    (l.map fun s => s - s0).Nodup := by
  have hnd : l.Nodup := h.imp Nat.ne_of_lt
  refine hnd.map_on ?_
  intro x hx y hy hxy
  have h1 := hge x hx
  have h2 := hge y hy
  omega

theorem listArgmin_lt_length : ∀ (l : List ℚ), l ≠ [] → listArgmin l < l.length
  | [], h => absurd rfl h
  | [_], _ => by simp [listArgmin]
  | x :: y :: t, _ => by
    have ih := listArgmin_lt_length (y :: t) (by simp)
    simp only [List.length_cons] at ih
    by_cases hc : (y :: t).getD (listArgmin (y :: t)) 0 < x
    · simp only [listArgmin, if_pos hc, List.length_cons]
      omega
    · simp only [listArgmin, if_neg hc, List.length_cons]
      omega

theorem listArgmin_le : ∀ (l : List ℚ) (j : ℕ), j < l.length →
    l.getD (listArgmin l) 0 ≤ l.getD j 0
  | [], j, hj => by simp at hj
  | [x], j, hj => by
    have : j = 0 := by simpa using hj
    subst this
    simp [listArgmin]
  | x :: y :: t, j, hj => by
    by_cases hc : (y :: t).getD (listArgmin (y :: t)) 0 < x
    · simp only [listArgmin, if_pos hc]
      cases j with
      | zero =>
        simpa using le_of_lt hc
      | succ j =>
        have ih := listArgmin_le (y :: t) j (by simpa using hj)
        simpa using ih
    · simp only [listArgmin, if_neg hc]
      cases j with
      | zero => simp
      | succ j =>
        have ih := listArgmin_le (y :: t) j (by simpa using hj)
        have hx : x ≤ (y :: t).getD (listArgmin (y :: t)) 0 := not_lt.1 hc
        simpa using le_trans hx ih

theorem getD_getElem? (l : List ℚ) (i : ℕ) (hi : i < l.length) :
    l[i]? = some (l.getD i 0) := by
  rw [List.getD_eq_getElem?_getD, List.getElem?_eq_getElem hi]
  rfl

theorem getD_drop_take (l : List ℚ) (i c k : ℕ) (hk : k < c) :
    ((l.drop i).take c).getD k 0 = l.getD (i + k) 0 := by
  have h1 : ((l.drop i).take c)[k]? = (l.drop i)[k]? := by
    rw [List.getElem?_take]
    simp [hk]
  have h2 : (l.drop i)[k]? = l[i + k]? := List.getElem?_drop l i k
  rw [List.getD_eq_getElem?_getD, List.getD_eq_getElem?_getD, h1, h2]

theorem drop_take_length (l : List ℚ) (i c : ℕ) (h : i + c ≤ l.length) :
    ((l.drop i).take c).length = c := by
  simp only [List.length_take, List.length_drop]
  omega

theorem maskFilter_length_le {α : Type} : ∀ (m : List Bool) (xs : List α),
    (maskFilter m xs).length ≤ xs.length
  | [], xs => by simp [maskFilter]
  | _ :: _, [] => by simp [maskFilter]
  | true :: ms, x :: xs => by
    simp only [maskFilter, List.length_cons]
    exact Nat.succ_le_succ (maskFilter_length_le ms xs)
  | false :: ms, x :: xs => by
    simp only [maskFilter, List.length_cons]
    exact Nat.le_succ_of_le (maskFilter_length_le ms xs)

theorem maskFilter_length_eq {α β : Type} : ∀ (m : List Bool) (xs : List α)
    (ys : List β), xs.length = ys.length →
    (maskFilter m xs).length = (maskFilter m ys).length
  | [], xs, ys, _ => by
    cases xs <;> cases ys <;> simp [maskFilter]
  | _ :: _, [], ys, h => by
    cases ys with
    | nil => simp [maskFilter]
    | cons y ys => simp at h
  | _ :: _, x :: xs, [], h => by simp at h
  | true :: ms, x :: xs, y :: ys, h => by
    simp only [maskFilter, List.length_cons]
    have := maskFilter_length_eq ms xs ys (by simpa using h)
    omega
  | false :: ms, x :: xs, y :: ys, h => by
    simp only [maskFilter]
    exact maskFilter_length_eq ms xs ys (by simpa using h)

theorem maskFilter_getD_mem : ∀ (m : List Bool) (xs : List ℚ) (j : ℕ),
    m[j]? = some true → j < xs.length → xs.getD j 0 ∈ maskFilter m xs
  | [], xs, j, hm, _ => by simp at hm
  | b :: ms, [], j, _, hj => by simp at hj
  | b :: ms, x :: xs, 0, hm, _ => by
    simp only [List.getElem?_cons_zero, Option.some_inj] at hm
    subst hm
    simp [maskFilter]
  | b :: ms, x :: xs, j + 1, hm, hj => by
    simp only [List.getElem?_cons_succ] at hm
    have ih := maskFilter_getD_mem ms xs j hm (by simpa using hj)
    cases b with
    | true =>
      simp only [maskFilter]
      exact List.mem_cons_of_mem _ (by simpa using ih)
    | false =>
      simp only [maskFilter]
      simpa using ih

theorem setTrue_length : ∀ (m : List Bool) (idxs : List ℕ),
    (setTrue m idxs).length = m.length
  | m, [] => rfl
  | m, i :: is => by
    simp only [setTrue]
    rw [setTrue_length (m.set i true) is]
    simp

theorem setTrue_preserves_true : ∀ (m : List Bool) (idxs : List ℕ) (j : ℕ),
    m[j]? = some true → (setTrue m idxs)[j]? = some true
  | m, [], j, h => h
  | m, i :: is, j, h => by
    simp only [setTrue]
    apply setTrue_preserves_true (m.set i true) is j
    by_cases hij : i = j
    · subst hij
      have : i < m.length := by
        by_contra hc
        rw [List.getElem?_eq_none (by omega)] at h
        exact absurd h (by simp)
      simp [List.getElem?_set, this]
    · rw [List.getElem?_set_ne hij]
      exact h

theorem setTrue_getElem?_mem : ∀ (m : List Bool) (idxs : List ℕ) (j : ℕ),
    j ∈ idxs → j < m.length → (setTrue m idxs)[j]? = some true
  | m, [], j, hj, _ => by simp at hj
  | m, i :: is, j, hj, hlen => by
    rcases List.mem_cons.1 hj with h1 | h1
    · subst h1
      simp only [setTrue]
      apply setTrue_preserves_true
      simp [List.getElem?_set, hlen]
    · simp only [setTrue]
      exact setTrue_getElem?_mem (m.set i true) is j h1 (by simpa using hlen)

theorem applyReps_getElem?_not_mem : ∀ (l : List ℚ) (reps : List (ℕ × ℚ)) (p : ℕ),
    p ∉ reps.map Prod.fst → (applyReps l reps)[p]? = l[p]?
  | l, [], p, _ => rfl
  | l, (q, v) :: rest, p, hp => by
    simp only [List.map_cons, List.mem_cons] at hp
    push_neg at hp
    simp only [applyReps]
    rw [applyReps_getElem?_not_mem (l.set q v) rest p hp.2]
    rw [List.getElem?_set_ne (fun hc => hp.1 hc.symm)]

theorem applyReps_getElem?_mem : ∀ (l : List ℚ) (reps : List (ℕ × ℚ)) (p : ℕ) (v : ℚ),
    (p, v) ∈ reps → (reps.map Prod.fst).Nodup → p < l.length →
    (applyReps l reps)[p]? = some v
  | l, [], p, v, hmem, _, _ => by simp at hmem
  | l, (q, w) :: rest, p, v, hmem, hnd, hp => by
    simp only [List.map_cons, List.nodup_cons] at hnd
    rcases List.mem_cons.1 hmem with h1 | h1
    · injection h1 with h2 h3
      subst h2
      subst h3
      simp only [applyReps]
      rw [applyReps_getElem?_not_mem (l.set p v) rest p hnd.1]
      simp [List.getElem?_set, hp]
    · simp only [applyReps]
      exact applyReps_getElem?_mem (l.set q w) rest p v h1 hnd.2 (by simpa using hp)

theorem mem_insertSortedDistinct (v u : ℕ) (l : List ℕ) :
    v ∈ insertSortedDistinct u l ↔ v = u ∨ v ∈ l := by
  induction l with
  | nil => simp [insertSortedDistinct]
  | cons x xs ih =>
    unfold insertSortedDistinct
    by_cases h1 : u = x
    · subst h1
      rw [if_pos rfl]
      simp only [List.mem_cons]
      tauto
    · rw [if_neg h1]
      by_cases h2 : u < x
      · rw [if_pos h2]
        simp [List.mem_cons]
      · rw [if_neg h2]
        simp only [List.mem_cons, ih]
        tauto

theorem mem_uniqueVals (v : ℕ) (l : List ℕ) : v ∈ uniqueVals l ↔ v ∈ l := by
  induction l with
  | nil => simp [uniqueVals]
  | cons x xs ih => simp [uniqueVals, mem_insertSortedDistinct, ih]

theorem countVal_le_length (u : ℕ) (l : List ℕ) : countVal u l ≤ l.length := by
  induction l with
  | nil => simp [countVal]
  | cons x xs ih =>
    by_cases h : x = u <;> simp [countVal, h] <;> omega

theorem firstIdx_add_countVal_le (u : ℕ) (l : List ℕ) (h : u ∈ l) :
    firstIdx u l + countVal u l ≤ l.length := by
  induction l with
  | nil => simp at h
  | cons x xs ih =>
    by_cases hx : x = u
    · have := countVal_le_length u xs
      simp [firstIdx, countVal, hx]
      omega
    · have hu : u ∈ xs := by
        rcases List.mem_cons.1 h with h1 | h1
        · exact absurd h1.symm hx
        · exact h1
      have := ih hu
      simp [firstIdx, countVal, hx]
      omega

theorem dupGroupsAux_mem_elim : ∀ (p : ℕ) (fi ci : List ℕ) (g : ℕ × ℕ × ℕ),
    g ∈ dupGroupsAux p fi ci →
    ∃ k, g.1 = p + k ∧ fi[k]? = some g.2.1 ∧ ci[k]? = some g.2.2 ∧ 1 < g.2.2
  | p, [], ci, g, hg => by simp [dupGroupsAux] at hg
  | p, i :: is, [], g, hg => by simp [dupGroupsAux] at hg
  | p, i :: is, c :: cs, g, hg => by
    unfold dupGroupsAux at hg
    by_cases hc : 1 < c
    · rw [if_pos hc] at hg
      rcases List.mem_cons.1 hg with h1 | h1
      · subst h1
        exact ⟨0, by omega, by simp, by simp, hc⟩
      · obtain ⟨k, hk1, hk2, hk3, hk4⟩ := dupGroupsAux_mem_elim (p + 1) is cs g h1
        exact ⟨k + 1, by omega, by simpa using hk2, by simpa using hk3, hk4⟩
    · rw [if_neg hc] at hg
      obtain ⟨k, hk1, hk2, hk3, hk4⟩ := dupGroupsAux_mem_elim (p + 1) is cs g hg
      exact ⟨k + 1, by omega, by simpa using hk2, by simpa using hk3, hk4⟩

theorem dupGroupsAux_fst_pairwise : ∀ (p : ℕ) (fi ci : List ℕ),
    ((dupGroupsAux p fi ci).map Prod.fst).Pairwise (fun a b : ℕ => a < b)
  | p, [], ci => by simp [dupGroupsAux]
  | p, i :: is, [] => by simp [dupGroupsAux]
  | p, i :: is, c :: cs => by
    unfold dupGroupsAux
    by_cases hc : 1 < c
    · rw [if_pos hc]
      simp only [List.map_cons]
      refine List.pairwise_cons.2 ⟨?_, dupGroupsAux_fst_pairwise (p + 1) is cs⟩
      intro b hb
      simp only [List.mem_map] at hb
      obtain ⟨g, hg, hgb⟩ := hb
      obtain ⟨k, hk1, _, _, _⟩ := dupGroupsAux_mem_elim (p + 1) is cs g hg
      omega
    · rw [if_neg hc]
      exact dupGroupsAux_fst_pairwise (p + 1) is cs

theorem find_closest_list_length : ∀ (mz1 mz2 : List ℚ) (ci : List ℕ),
    find_closest_list mz1 mz2 = some ci → ci.length = mz2.length
  | mz1, [], ci, h => by
    simp only [find_closest_list, Option.some_inj] at h
    simp [← h]
  | mz1, q :: qs, ci, h => by
    unfold find_closest_list at h
    split at h
    · rename_i i is hi his
      injection h with h2
      have := find_closest_list_length mz1 qs is his
      simp [← h2, this]
    · exact absurd h (by simp)

theorem dmzOf_length (mz1 : List ℚ) : ∀ (ci : List ℕ) (q : List ℚ),
    (dmzOf mz1 ci q).length = min ci.length q.length
  | [], q => by simp [dmzOf]
  | i :: is, [] => by simp [dmzOf]
  | i :: is, x :: xs => by
    simp only [dmzOf, List.length_cons, dmzOf_length mz1 is xs]
    omega

theorem match_mz_closest_elim (mz1 mz2 sp2 : List ℚ) (tol : ℚ)
    (f g : List ℚ → ℚ) (ci : List ℕ) (mr : MatchResult)
    (hci : find_closest_list mz1 mz2 = some ci)
    (h : match_mz mz1 mz2 sp2 tol "closest" f g = some mr) :
    mr = closestPipeline mz1 mz2 sp2 tol ci := by
  unfold match_mz at h
  split at h
  · rename_i heq
    rw [hci] at heq
    exact absurd heq (by simp)
  · rename_i ci' heq
    rw [hci] at heq
    injection heq with heq2
    subst heq2
    by_cases hg : dupGroupsOf mz1 mz2 tol ci = []
    · rw [if_pos hg] at h
      injection h with h2
      exact h2.symm
    · rw [if_neg hg, if_pos rfl] at h
      injection h with h2
      exact h2.symm

theorem extend_spawn (s : RoiProcessor) (mz sp : List ℚ) (s' : RoiProcessor)
    (h : s.extend mz sp = some s') (j : ℕ) (m v : ℚ)
    (hm : mz[j]? = some m) (hv : sp[j]? = some v) :
    ∃ t, t ∈ s'.traces ∧ t.mzMean = m ∧ t.nMissing = 0 ∧ t.length = 1 ∧
      t.maxIntensity = 0 ∧
      (t.roiIndex, (⟨[m], [v], [s.index]⟩ : TempRoi)) ∈ s'.tempRoiDict := by
  obtain ⟨mi, hmi, hs'⟩ := extend_elim s mz sp s' h
  subst hs'
  refine ⟨⟨m, 0, 1, 0, mi + 1 + j⟩, ?_, rfl, rfl, rfl, rfl, ?_⟩
  · have hmem : (⟨m, 0, 1, 0, mi + 1 + j⟩ : TraceSlot) ∈
        s.traces ++ spawnSlots (mi + 1) mz := by
      apply List.mem_append_right
      exact List.get?_mem (by rw [List.get?_eq_getElem?]; exact spawnSlots_getElem? (mi + 1) mz j m hm)
    exact ((List.perm_insertionSort slotLE _).mem_iff).2 hmem
  · apply List.mem_append_right
    exact List.get?_mem
      (by rw [List.get?_eq_getElem?]; exact spawnDict_getElem? (mi + 1) s.index mz sp j m v hm hv)

set_option maxHeartbeats 2000000

/-- C10: in untargeted mode, once a finalize pass has emptied the active
set, a subsequent `add` call on a scan with at least one peak raises an
unhandled exception instead of re-seeding (modelled as `none`): the
nearest-trace lookup has no trace to return for the first peak, and the
spawn path would take the maximum of the now empty identity array
(`self.roi_index.max()` in `extend`), so the engine cannot recover. -/
theorem C10_empty_active_set_add_raises (s : RoiProcessor) (mz sp : List ℚ)
    (f g : List ℚ → ℚ) (hempty : s.traces = []) (hmz : mz ≠ []) :
    s.add mz sp false f g = none := by
  unfold RoiProcessor.add
  cases mz with
  | nil => exact absurd rfl hmz
  | cons q qs =>
    rw [hempty]
    simp [match_mz, find_closest_list, find_closest]

theorem C10_witness :
    c10_state.traces = [] ∧ ([(5 : ℚ)] ≠ []) ∧
      c10_state.add [5] [1] false np_mean np_sum = none :=
  ⟨rfl, by simp,
    C10_empty_active_set_add_raises c10_state [5] [1] np_mean np_sum rfl (by simp)⟩

/-- C9 (amended): engine construction fails with `ValueError` exactly
when the seed array is not one-dimensional or the multiple-match policy
string is unrecognised; the tolerance is NOT validated (the claim's
"tolerance ≤ 0 raises" clause does not hold on the code — see the
counterexample), and no other check is performed, so any construction
with a rank-1 seed and a recognised policy succeeds. -/
theorem C9_init_error_iff (seed : NDArray) (mm ml : ℕ) (mi tol : ℚ)
    (pol : String) :
    (∃ e, RoiProcessor.init seed mm ml mi tol pol = Except.error e) ↔
      (seed.shape.length ≠ 1 ∨ (pol ≠ "closest" ∧ pol ≠ "reduce")) := by
  unfold RoiProcessor.init
  by_cases h1 : seed.shape.length ≠ 1
  · rw [if_pos h1]
    simp [h1]
  · rw [if_neg h1]
    by_cases h2 : ¬(pol = "closest" ∨ pol = "reduce")
    · rw [if_pos h2]
      simp only [not_or] at h2
      simp [h1, h2]
    · rw [if_neg h2]
      simp only [not_not] at h2
      constructor
      · intro he
        obtain ⟨e, he⟩ := he
        exact absurd he (by simp)
      · intro hor
        rcases hor with h3 | h3
        · exact absurd h3 h1
        · rcases h2 with h4 | h4
          · exact absurd h4 h3.1
          · exact absurd h4 h3.2

/-- C9 counterexample: the claim as stated says construction raises
whenever the tolerance is not strictly positive; the code performs no
tolerance check, and construction with tolerance `-1` (rank-1 seed,
recognised policy) succeeds. -/
theorem C9_counterexample :
    RoiProcessor.init ⟨[1], [100]⟩ 1 2 0 (-1) "closest" =
      Except.ok
        { traces := [⟨100, 0, 0, 0, 0⟩], index := 0,
          tempRoiDict := [(0, make_empty_temp_roi)], roi := [],
          maxMissing := 1, minLength := 2, minIntensity := 0,
          tolerance := -1, multipleMatch := "closest" } := by
  rfl

/-- C5 (code evaluated at the failing input): with one active trace at
m/z 100, tolerance 0.005 and scan peaks 50, 100.001, 100.004 under the
`closest` policy, the removal positions computed in filtered-peak
coordinates are applied to the full-scan mask (lcms.py line 1207), so
the winning peak 100.001 appears in BOTH the matched and the unmatched
outputs, and the losing peak 100.004 appears in NEITHER — the outputs do
not partition the incoming peaks as the claim (and the function's own
docstring) require. -/
theorem C5_partition_failure :
    match_mz [100] [50, 100001/1000, 100004/1000] [1, 10, 20] (1/200) "closest"
        np_mean np_sum =
      some ⟨[0], [100001/1000], [10], [50, 100001/1000], [1, 10]⟩ ∧
    ((100001 : ℚ)/1000 ∈ [(100001 : ℚ)/1000] ∧
      (100001 : ℚ)/1000 ∈ [(50 : ℚ), 100001/1000] ∧
      (100004 : ℚ)/1000 ∉ [(100001 : ℚ)/1000] ∧
      (100004 : ℚ)/1000 ∉ [(50 : ℚ), 100001/1000]) := by
  constructor
  · norm_num [match_mz, find_closest_list, find_closest, listArgmin, dupGroupsOf,
      firstIdxOf, countOf, uniqueOf, matchIdxOf, matchMaskOf, dmzOf, maskFilter,
      uniqueVals, insertSortedDistinct, firstIdx, countVal, dupGroupsAux,
      closestPipeline, resolvedOf, resolveGroup, dmzMOf, mzMOf, spMOf,
      baseMzMatchOf, baseSpMatchOf, noMaskClosestOf, setTrue, applyReps,
      abs_of_nonneg, abs_of_nonpos]
  · refine ⟨by simp, by norm_num, by norm_num, by norm_num⟩

set_option maxHeartbeats 2000000

theorem add_untargeted_perm (s : RoiProcessor) (mz sp : List ℚ)
    (f g : List ℚ → ℚ) (s' : RoiProcessor)
    (h : s.add mz sp false f g = some s') :
    ∃ r mi,
      match_mz (s.traces.map fun t => t.mzMean) mz sp s.tolerance
          s.multipleMatch f g = some r ∧
      (s.traces.map fun t => t.roiIndex).max? = some mi ∧
      s'.traces.Perm
        (matchUpdate (r.match_index.zip (r.mz_match.zip r.sp_match)) false
            s.traces 0 ++ spawnSlots (mi + 1) r.mz_no_match) := by
  obtain ⟨r, d1, s2, hr, hd1, hext, hs'⟩ := add_untargeted_elim s mz sp f g s' h
  obtain ⟨mi, hmi, hs2⟩ := extend_elim _ _ _ _ hext
  simp only [matchUpdate_map_roiIndex] at hmi
  refine ⟨r, mi, hr, hmi, ?_⟩
  subst hs'
  subst hs2
  exact List.perm_insertionSort slotLE _

/-- C3: the per-slot update of `add` (lcms.py lines 1041-1050) computes
the incremental unweighted running mean with the pre-increment length,
`(mz_mean * length_before + mz) / (length_before + 1)`, and applies it
only when `targeted` is false; in targeted mode every trace's mean m/z
is left unchanged by the whole `add` call.  The third conjunct places
the updated slots in the post-state of an untargeted `add`: the new
trace list is a permutation (the `np.argsort` re-sort) of the updated
slots plus the spawned ones. -/
theorem C3_mean_update :
    (∀ (trip : List (ℕ × ℚ × ℚ)) (targeted : Bool) (ts : List TraceSlot)
        (i j : ℕ) (t : TraceSlot) (km ks : ℚ),
      ts[j]? = some t → lookupMatch trip (i + j) = some (km, ks) →
      ((matchUpdate trip targeted ts i)[j]?).map (fun u => u.mzMean) =
        some (if targeted then t.mzMean
              else (t.mzMean * t.length + km) / ((t.length : ℚ) + 1))) ∧
    (∀ (s : RoiProcessor) (mz sp : List ℚ) (f g : List ℚ → ℚ)
        (s' : RoiProcessor), s.add mz sp true f g = some s' →
      s'.traces.map (fun u => u.mzMean) = s.traces.map (fun u => u.mzMean)) ∧
    (∀ (s : RoiProcessor) (mz sp : List ℚ) (f g : List ℚ → ℚ)
        (s' : RoiProcessor), s.add mz sp false f g = some s' →
      ∃ r mi,
        match_mz (s.traces.map fun t => t.mzMean) mz sp s.tolerance
            s.multipleMatch f g = some r ∧
        (s.traces.map fun t => t.roiIndex).max? = some mi ∧
        s'.traces.Perm
          (matchUpdate (r.match_index.zip (r.mz_match.zip r.sp_match)) false
              s.traces 0 ++ spawnSlots (mi + 1) r.mz_no_match)) := by
  refine ⟨?_, ?_, ?_⟩
  · intro trip targeted ts i j t km ks ht hm
    rw [matchUpdate_getElem?, ht]
    simp [matchSlot, hm]
  · exact fun s mz sp f g s' h => add_means_targeted s mz sp f g s' h
  · exact fun s mz sp f g s' h => add_untargeted_perm s mz sp f g s' h

theorem C3_witness :
    (c3_state.traces[0]? = some ⟨10, 0, 1, 4, 0⟩) ∧
    ((matchUpdate [(0, (9 : ℚ), (4 : ℚ))] false c3_state.traces 0)[0]?).map
        (fun u => u.mzMean) = some (19/2) := by
  constructor
  · norm_num [c3_state]
  · have h := C3_mean_update.1 [(0, (9 : ℚ), (4 : ℚ))] false c3_state.traces 0 0
      ⟨10, 0, 1, 4, 0⟩ 9 4 (by norm_num [c3_state]) (by norm_num [lookupMatch])
    rw [h]
    norm_num

set_option maxHeartbeats 4000000

/-- C7 (corrected; counterexample): starting from the engine state built
by the constructor on seed `[100]`, an untargeted `add` of the scan
`(mz, intensity) = ([100, 200], [5, 10])` matches the seed trace with
intensity 5 (its running maximum becomes 5) and spawns a new trace from
the unmatched peak at 200; the spawned trace's `TempRoi` records the
sample intensity 10, yet its `max_intensity` slot is initialised to 0
(lcms.py line 1103), not to the running maximum 10 of its recorded
samples — refuting the claim for spawned traces. -/
theorem C7_counterexample :
    RoiProcessor.init ⟨[1], [100]⟩ 1 2 0 1 "closest" = Except.ok c7_state ∧
    (c7_state.add [100, 200] [5, 10] false np_mean np_sum).map
        (fun s => (s.traces.map fun t => (t.mzMean, t.maxIntensity),
          s.tempRoiDict)) =
      some ([((100 : ℚ), (5 : ℚ)), (200, 0)],
        [(0, ⟨[100], [5], [0]⟩), (1, ⟨[200], [10], [0]⟩)]) ∧
    (0 : ℚ) ≠ 10 := by
  refine ⟨rfl, ?_, by norm_num⟩
  norm_num [c7_state, RoiProcessor.add, match_mz, find_closest_list, find_closest,
    listArgmin, dupGroupsOf, firstIdxOf, countOf, uniqueOf, matchIdxOf, matchMaskOf,
    dmzOf, maskFilter, uniqueVals, insertSortedDistinct, firstIdx, countVal,
    dupGroupsAux, closestPipeline, resolvedOf, resolveGroup, dmzMOf, mzMOf, spMOf,
    baseMzMatchOf, baseSpMatchOf, noMaskClosestOf, setTrue, applyReps,
    abs_of_nonneg, abs_of_nonpos, appendMatches, appendSample, matchUpdate,
    matchSlot, lookupMatch, RoiProcessor.extend, spawnSlots, spawnDict,
    List.insertionSort, List.orderedInsert, slotLE, List.max?, make_empty_temp_roi]

/-- C7 (amended): `max_intensity` is the running maximum over the
intensities recorded through `add` matching only: a matched slot is
updated to `max(old, matched intensity)` and an unmatched slot keeps its
value (lcms.py lines 1047-1048), while a trace spawned from an unmatched
peak by `extend` starts with `max_intensity = 0` (lcms.py line 1103)
although its `TempRoi` already records the spawning sample's intensity —
so the spawn sample is excluded from the running maximum. -/
theorem C7_max_intensity :
    (∀ (s : RoiProcessor) (mz sp : List ℚ) (s' : RoiProcessor) (j : ℕ)
        (m v : ℚ), s.extend mz sp = some s' → mz[j]? = some m →
      sp[j]? = some v →
      ∃ t, t ∈ s'.traces ∧ t.mzMean = m ∧ t.nMissing = 0 ∧ t.length = 1 ∧
        t.maxIntensity = 0 ∧
        (t.roiIndex, (⟨[m], [v], [s.index]⟩ : TempRoi)) ∈ s'.tempRoiDict) ∧
    (∀ (trip : List (ℕ × ℚ × ℚ)) (targeted : Bool) (i : ℕ) (t : TraceSlot)
        (km ks : ℚ), lookupMatch trip i = some (km, ks) →
      (matchSlot trip targeted i t).maxIntensity = max t.maxIntensity ks) ∧
    (∀ (trip : List (ℕ × ℚ × ℚ)) (targeted : Bool) (i : ℕ) (t : TraceSlot),
      lookupMatch trip i = none →
      (matchSlot trip targeted i t).maxIntensity = t.maxIntensity) := by
  refine ⟨?_, ?_, ?_⟩
  · exact fun s mz sp s' j m v h hm hv => extend_spawn s mz sp s' h j m v hm hv
  · intro trip targeted i t km ks hm
    simp [matchSlot, hm]
  · intro trip targeted i t hm
    simp [matchSlot, hm]

theorem C7_witness :
    c7_state.extend [200] [10] = some c7_state1 ∧
    (∃ t, t ∈ c7_state1.traces ∧ t.mzMean = 200 ∧ t.nMissing = 0 ∧
      t.length = 1 ∧ t.maxIntensity = 0 ∧
      (t.roiIndex, (⟨[200], [10], [0]⟩ : TempRoi)) ∈ c7_state1.tempRoiDict) := by
  have heval : c7_state.extend [200] [10] = some c7_state1 := by
    norm_num [c7_state, c7_state1, RoiProcessor.extend, spawnSlots, spawnDict,
      List.insertionSort, List.orderedInsert, slotLE, List.max?,
      make_empty_temp_roi]
  refine ⟨heval, ?_⟩
  have h := C7_max_intensity.1 c7_state [200] [10] c7_state1 0 200 10 heval rfl rfl
  simpa [c7_state] using h

set_option maxHeartbeats 4000000

/-- C1: the sortedness invariant.  First conjunct (one scan of the
driver): from any state with a non-decreasing mean-m/z array, after
`add` and the subsequent finalize pass the array is again
non-decreasing — in untargeted mode because `extend` re-sorts all
parallel arrays and removal filters a sorted array, in targeted mode
because neither call changes any mean.  Second conjunct (whole driver):
from a construction on an ascending seed, every state reached by the
per-scan loop of `make_roi` (which models the
`assert (np.diff(processor.mz_mean) >= 0).all()` of lcms.py line 1330
as an abort guard, so a violation would end the run as `none` rather
than continue) has a non-decreasing mean-m/z array; since the scan list
is universally quantified, every prefix of a run — i.e. every processed
scan — is covered, and the assertion never aborts a run. -/
theorem C1_sorted_invariant :
    (∀ (targeted : Bool) (f g : List ℚ → ℚ) (s s1 s2 : RoiProcessor)
        (mz sp rt : List ℚ),
      List.Pairwise (fun a b : ℚ => a ≤ b) (s.traces.map fun t => t.mzMean) →
      s.add mz sp targeted f g = some s1 →
      s1.append_to_roi rt targeted = some s2 →
      List.Pairwise (fun a b : ℚ => a ≤ b) (s2.traces.map fun t => t.mzMean)) ∧
    (∀ (seed : NDArray) (mm ml : ℕ) (mi tol : ℚ) (pol : String)
        (s0 : RoiProcessor) (targeted : Bool) (size : ℕ) (f g : List ℚ → ℚ)
        (scans : List Scan) (out : RoiProcessor × List ℚ),
      List.Pairwise (fun a b : ℚ => a ≤ b) seed.data →
      RoiProcessor.init seed mm ml mi tol pol = Except.ok s0 →
      make_roi_loop targeted size f g scans (s0, []) = some out →
      List.Pairwise (fun a b : ℚ => a ≤ b) (out.1.traces.map fun t => t.mzMean)) := by
  constructor
  · intro targeted f g s s1 s2 mz sp rt hs h1 h2
    exact step_sorted targeted s s1 s2 mz sp f g rt hs h1 h2
  · intro seed mm ml mi tol pol s0 targeted size f g scans out hseed hinit hloop
    have h0 := init_ok_elim seed mm ml mi tol pol s0 hinit
    apply make_roi_loop_sorted targeted size f g scans s0 [] out _ hloop
    rw [h0]
    simpa [seedTraces_map_mzMean] using hseed

theorem C1_witness :
    make_roi_loop true 1 np_mean np_sum [⟨0, [10], [7]⟩] (c1_state, []) =
      some (c1_state1, [0]) ∧
    RoiProcessor.init ⟨[1], [10]⟩ 1 2 0 1 "closest" = Except.ok c1_state ∧
    List.Pairwise (fun a b : ℚ => a ≤ b) (c1_state1.traces.map fun t => t.mzMean) := by
  have heval : make_roi_loop true 1 np_mean np_sum [⟨0, [10], [7]⟩] (c1_state, []) =
      some (c1_state1, [0]) := by
    norm_num [c1_state, c1_state1, make_roi_loop, RoiProcessor.add,
      RoiProcessor.append_to_roi, match_mz, find_closest_list, find_closest,
      listArgmin, dupGroupsOf, firstIdxOf, countOf, uniqueOf, matchIdxOf,
      matchMaskOf, dmzOf, maskFilter, uniqueVals, insertSortedDistinct, firstIdx,
      countVal, dupGroupsAux, closestPipeline, resolvedOf, resolveGroup, dmzMOf,
      mzMOf, spMOf, baseMzMatchOf, baseSpMatchOf, noMaskClosestOf, setTrue,
      applyReps, abs_of_nonneg, abs_of_nonpos, appendMatches, appendSample,
      matchUpdate, matchSlot, lookupMatch, emitCompleted, popAssoc, isCompleted,
      isValidRoi, resetCompleted, freshDict, List.max?, rtFill,
      make_empty_temp_roi]
  refine ⟨heval, rfl, ?_⟩
  exact C1_sorted_invariant.2 ⟨[1], [10]⟩ 1 2 0 1 "closest" c1_state true 1
    np_mean np_sum [⟨0, [10], [7]⟩] (c1_state1, [0]) (by simp) rfl heval

set_option maxHeartbeats 4000000

/-- C2: one finalize pass (`append_to_roi`).  In untargeted mode exactly
the traces with `n_missing > max_missing` are removed from the active
arrays (first conjunct).  In both modes, the pass appends exactly one
ROI per completed trace satisfying `length ≥ min_length` and
`max_intensity ≥ min_intensity` (second conjunct: the discarded traces
produce no output), and every newly kept ROI is the densification of a
completed valid trace's `TempRoi` (third conjunct), so every emitted ROI
stems from a trace with `length ≥ min_length` and `max_intensity ≥
min_intensity`. -/
theorem C2_finalize_pass (s : RoiProcessor) (rt : List ℚ) (targeted : Bool)
    (s' : RoiProcessor) (h : s.append_to_roi rt targeted = some s') :
    (targeted = false →
      s'.traces = s.traces.filter fun t => ! isCompleted s.maxMissing t) ∧
    s'.roi.length = s.roi.length +
      ((s.traces.filter (isCompleted s.maxMissing)).filter
        (isValidRoi s.minLength s.minIntensity)).length ∧
    (∀ r ∈ s'.roi, r ∈ s.roi ∨ ∃ t, t ∈ s.traces ∧
      isCompleted s.maxMissing t = true ∧
      isValidRoi s.minLength s.minIntensity t = true ∧
      ∃ tmp, (t.roiIndex, tmp) ∈ s.tempRoiDict ∧
        tmp_roi_to_roi tmp rt = some r) := by
  have hmem_filter : ∀ t, t ∈ s.traces.filter (isCompleted s.maxMissing) →
      t ∈ s.traces ∧ isCompleted s.maxMissing t = true := by
    intro t ht
    exact ⟨List.mem_of_mem_filter ht, List.of_mem_filter ht⟩
  cases targeted with
  | false =>
    obtain ⟨d1, roi1, hp, hs'⟩ := append_untargeted_elim s rt s' h
    subst hs'
    refine ⟨fun _ => rfl, ?_, ?_⟩
    · exact emitCompleted_roi_length s.minLength s.minIntensity rt _ _ _ _ _ hp
    · intro r hr
      rcases emitCompleted_mem s.minLength s.minIntensity rt _ _ _ _ _ hp r hr
        with h1 | ⟨t, ht, hv, tmp, htmp, hroi⟩
      · exact Or.inl h1
      · obtain ⟨ht1, ht2⟩ := hmem_filter t ht
        exact Or.inr ⟨t, ht1, ht2, hv, tmp, htmp, hroi⟩
  | true =>
    obtain ⟨d1, roi1, mi, hp, hmax, hs'⟩ := append_targeted_elim s rt s' h
    subst hs'
    refine ⟨fun hc => absurd hc (by simp), ?_, ?_⟩
    · exact emitCompleted_roi_length s.minLength s.minIntensity rt _ _ _ _ _ hp
    · intro r hr
      rcases emitCompleted_mem s.minLength s.minIntensity rt _ _ _ _ _ hp r hr
        with h1 | ⟨t, ht, hv, tmp, htmp, hroi⟩
      · exact Or.inl h1
      · obtain ⟨ht1, ht2⟩ := hmem_filter t ht
        exact Or.inr ⟨t, ht1, ht2, hv, tmp, htmp, hroi⟩

theorem C2_witness :
    c2_state.append_to_roi [0, 1, 2, 3, 4] false = some c2_state1 ∧
    c2_state1.traces =
      c2_state.traces.filter (fun t => ! isCompleted c2_state.maxMissing t) ∧
    c2_state1.roi.length = c2_state.roi.length +
      ((c2_state.traces.filter (isCompleted c2_state.maxMissing)).filter
        (isValidRoi c2_state.minLength c2_state.minIntensity)).length := by
  have heval : c2_state.append_to_roi [0, 1, 2, 3, 4] false = some c2_state1 := by
    norm_num [c2_state, c2_state1, RoiProcessor.append_to_roi, emitCompleted,
      popAssoc, isCompleted, isValidRoi, tmp_roi_to_roi, scatter, List.max?,
      List.replicate, List.set,
      make_empty_temp_roi]
  have h := C2_finalize_pass c2_state [0, 1, 2, 3, 4] false c2_state1 heval
  exact ⟨heval, h.1 rfl, h.2.1⟩

set_option maxHeartbeats 4000000

/-- C6: targeted-mode cardinality and slot recycling.  A targeted `add`
never grows or shrinks the slot arrays (first conjunct: unmatched peaks
never spawn traces because `extend` is not called).  A targeted finalize
pass keeps the slot count and, for every completed slot, resets
`n_missing`, `length` and `max_intensity` to zero in place, assigns a
fresh identity strictly greater than every identity in use, and starts a
new empty `TempRoi` under that identity (second conjunct).  Hence the
whole targeted per-scan driver loop preserves the slot count — with a
targeted m/z list of length N the count is exactly N after every `add`
and every finalize pass of the run (third conjunct). -/
theorem C6_targeted_cardinality :
    (∀ (s : RoiProcessor) (mz sp : List ℚ) (f g : List ℚ → ℚ)
        (s' : RoiProcessor), s.add mz sp true f g = some s' →
      s'.traces.length = s.traces.length) ∧
    (∀ (s : RoiProcessor) (rt : List ℚ) (s' : RoiProcessor),
      s.append_to_roi rt true = some s' →
      s'.traces.length = s.traces.length ∧
      ∀ (i : ℕ) (t : TraceSlot), s.traces[i]? = some t →
        isCompleted s.maxMissing t = true →
        ∃ t', s'.traces[i]? = some t' ∧ t'.nMissing = 0 ∧ t'.length = 0 ∧
          t'.maxIntensity = 0 ∧
          (∀ m, (s.traces.map fun u => u.roiIndex).max? = some m →
            m < t'.roiIndex) ∧
          (t'.roiIndex, make_empty_temp_roi) ∈ s'.tempRoiDict) ∧
    (∀ (size : ℕ) (f g : List ℚ → ℚ) (scans : List Scan) (s : RoiProcessor)
        (rts : List ℚ) (out : RoiProcessor × List ℚ),
      make_roi_loop true size f g scans (s, rts) = some out →
      out.1.traces.length = s.traces.length) := by
  refine ⟨fun s mz sp f g s' h => add_length_targeted s mz sp f g s' h, ?_, ?_⟩
  · intro s rt s' h
    obtain ⟨d1, roi1, mi, hp, hmax, hs'⟩ := append_targeted_elim s rt s' h
    subst hs'
    refine ⟨resetCompleted_length _ _ _ _, ?_⟩
    intro i t ht hc
    obtain ⟨k, hk0, hklt, hkeq⟩ :=
      resetCompleted_getElem?_completed s.maxMissing (mi + 1) s.traces 0 i t ht hc
    refine ⟨_, hkeq, rfl, rfl, rfl, ?_, ?_⟩
    · intro m hm
      rw [hmax] at hm
      injection hm with hm2
      subst hm2
      simp
      omega
    · apply List.mem_append_right
      have := freshDict_mem (mi + 1)
        ((s.traces.filter (isCompleted s.maxMissing)).length) k (by omega)
      simpa using this
  · intro size f g scans s rts out h
    exact make_roi_loop_invariant (fun u => u.traces.length = s.traces.length)
      true size f g
      (fun s0 mz sp s1 rt s2 hP h1 h2 =>
        (append_length_targeted s1 rt s2 h2).trans
          ((add_length_targeted s0 mz sp f g s1 h1).trans hP))
      scans s rts out rfl h

theorem C6_witness :
    c6_state.append_to_roi [0, 1, 2, 3, 4, 5] true = some c6_state1 ∧
    c6_state1.traces.length = c6_state.traces.length ∧
    (∃ t', c6_state1.traces[0]? = some t' ∧ t'.nMissing = 0 ∧ t'.length = 0 ∧
      t'.maxIntensity = 0 ∧
      (∀ m, (c6_state.traces.map fun u => u.roiIndex).max? = some m →
        m < t'.roiIndex) ∧
      (t'.roiIndex, make_empty_temp_roi) ∈ c6_state1.tempRoiDict) := by
  have heval : c6_state.append_to_roi [0, 1, 2, 3, 4, 5] true = some c6_state1 := by
    norm_num [c6_state, c6_state1, RoiProcessor.append_to_roi, emitCompleted,
      popAssoc, isCompleted, isValidRoi, tmp_roi_to_roi, scatter, List.max?,
      List.replicate, List.set, resetCompleted, freshDict, make_empty_temp_roi]
  have h := (C6_targeted_cardinality.2.1 c6_state [0, 1, 2, 3, 4, 5] c6_state1 heval)
  refine ⟨heval, h.1, ?_⟩
  exact h.2 0 ⟨10, 5, 3, 7, 0⟩ (by norm_num [c6_state]) (by norm_num [isCompleted, c6_state])

set_option maxHeartbeats 4000000

/-- C8: densification of a closed trace (`tmp_roi_to_roi`).  For a
non-empty, strictly increasing scan list, the produced ROI spans
`[first_scan, last_scan]` inclusive: both dense arrays have length
`last_scan + 1 - first_scan`; each recorded sample appears at offset
`scan - first_scan`; every other offset holds the absence sentinel
(`none`, modelling NaN); the retention-time array is the slice of the
run's array over the same scan range; and `first_scan` is recorded on
the ROI. -/
theorem C8_densification (tmp : TempRoi) (rt : List ℚ)
    (hne : tmp.scan ≠ [])
    (hinc : List.Pairwise (fun a b : ℕ => a < b) tmp.scan)
    (hrt : tmp.scan.getLastD 0 < rt.length) :
    ∃ roi, tmp_roi_to_roi tmp rt = some roi ∧
      roi.first_scan = tmp.scan.headD 0 ∧
      roi.mz.length = tmp.scan.getLastD 0 + 1 - tmp.scan.headD 0 ∧
      roi.spint.length = tmp.scan.getLastD 0 + 1 - tmp.scan.headD 0 ∧
      roi.rt.length = tmp.scan.getLastD 0 + 1 - tmp.scan.headD 0 ∧
      (∀ (j p : ℕ), tmp.scan[j]? = some p →
        (∀ mval, tmp.mz[j]? = some mval →
          roi.mz[p - tmp.scan.headD 0]? = some (some mval)) ∧
        (∀ sval, tmp.sp[j]? = some sval →
          roi.spint[p - tmp.scan.headD 0]? = some (some sval))) ∧
      (∀ k, k < tmp.scan.getLastD 0 + 1 - tmp.scan.headD 0 →
        (tmp.scan.headD 0 + k) ∉ tmp.scan →
        roi.mz[k]? = some none ∧ roi.spint[k]? = some none) ∧
      (∀ k, k < tmp.scan.getLastD 0 + 1 - tmp.scan.headD 0 →
        roi.rt[k]? = rt[tmp.scan.headD 0 + k]?) := by
  obtain ⟨s0, tl, hscan⟩ : ∃ s0 tl, tmp.scan = s0 :: tl := by
    cases h : tmp.scan with
    | nil => exact absurd h hne
    | cons a b => exact ⟨a, b, rfl⟩
  have hfirst : tmp.scan.headD 0 = s0 := by rw [hscan]; rfl
  have hlast : tmp.scan.getLastD 0 = tl.getLastD s0 := by
    rw [hscan, List.getLastD_cons]
  have hlastS : tmp.scan.getLastD s0 = tl.getLastD s0 := by
    rw [hscan, List.getLastD_cons]
  have hge : ∀ x ∈ tmp.scan, s0 ≤ x := by
    intro x hx
    exact pairwise_lt_head_le s0 tl x (hscan ▸ hinc) (hscan ▸ hx)
  have hle : ∀ x ∈ tmp.scan, x ≤ tl.getLastD s0 := by
    intro x hx
    have := pairwise_lt_le_getLastD tmp.scan 0 hinc x hx
    rw [hlast] at this
    exact this
  have hs0 : s0 ∈ tmp.scan := by rw [hscan]; exact List.mem_cons_self _ _
  have hs0le : s0 ≤ tl.getLastD s0 := hle s0 hs0
  have hLlt : tl.getLastD s0 < rt.length := by rw [hlast] at hrt; exact hrt
  have hnodup : (tmp.scan.map fun s => s - s0).Nodup :=
    offsets_nodup s0 tmp.scan hinc hge
  have hroi : tmp_roi_to_roi tmp rt =
      some
        { spint := scatter (List.replicate (tl.getLastD s0 + 1 - s0) none)
            (tmp.scan.map fun s => s - s0) tmp.sp
          mz := scatter (List.replicate (tl.getLastD s0 + 1 - s0) none)
            (tmp.scan.map fun s => s - s0) tmp.mz
          rt := (rt.drop s0).take (tl.getLastD s0 + 1 - s0)
          first_scan := s0 } := by
    unfold tmp_roi_to_roi
    rw [hscan]
    simp only [List.getLastD_cons]
  refine ⟨_, hroi, by rw [hfirst], ?_, ?_, ?_, ?_, ?_, ?_⟩
  · simp only [scatter_length, List.length_replicate, hfirst, hlast]
  · simp only [scatter_length, List.length_replicate, hfirst, hlast]
  · simp only [List.length_take, List.length_drop, hfirst, hlast]
    omega
  · intro j p hj
    have hpm : p ∈ tmp.scan :=
      List.get?_mem (by rw [List.get?_eq_getElem?]; exact hj)
    have hp1 : s0 ≤ p := hge p hpm
    have hp2 : p ≤ tl.getLastD s0 := hle p hpm
    have hoff : (tmp.scan.map fun s => s - s0)[j]? = some (p - s0) := by
      rw [List.getElem?_map, hj]
      rfl
    have hbound : p - s0 < (List.replicate (tl.getLastD s0 + 1 - s0)
        (none : Option ℚ)).length := by
      simp only [List.length_replicate]
      omega
    constructor
    · intro mval hm
      rw [hfirst]
      exact scatter_getElem?_eq _ _ _ j (p - s0) mval hoff hm hnodup hbound
    · intro sval hs
      rw [hfirst]
      exact scatter_getElem?_eq _ _ _ j (p - s0) sval hoff hs hnodup hbound
  · intro k hk hnot
    rw [hfirst] at hnot
    rw [hfirst, hlast] at hk
    have hkmem : k ∉ (tmp.scan.map fun s => s - s0) := by
      intro hmem
      obtain ⟨x, hx, hxk⟩ := List.mem_map.1 hmem
      have := hge x hx
      have hxe : x = s0 + k := by omega
      exact hnot (hxe ▸ hx)
    have hrep : (List.replicate (tl.getLastD s0 + 1 - s0) (none : Option ℚ))[k]? =
        some none := by
      rw [List.getElem?_replicate, if_pos hk]
    constructor
    · rw [scatter_getElem?_not_mem _ _ _ _ hkmem, hrep]
    · rw [scatter_getElem?_not_mem _ _ _ _ hkmem, hrep]
  · intro k hk
    rw [hfirst, hlast] at hk
    rw [hfirst]
    rw [List.getElem?_take]
    simp only [hk, if_true]
    exact List.getElem?_drop rt s0 k

theorem C8_witness :
    List.Pairwise (fun a b : ℕ => a < b) c8_tmp.scan ∧
    (∃ roi, tmp_roi_to_roi c8_tmp [0, 1, 2, 3, 4] = some roi ∧
      roi.first_scan = 2 ∧ roi.mz.length = 3 ∧
      roi.mz[0]? = some (some 10) ∧ roi.mz[1]? = some none ∧
      roi.mz[2]? = some (some 11)) := by
  have hinc : List.Pairwise (fun a b : ℕ => a < b) c8_tmp.scan := by
    norm_num [c8_tmp]
  refine ⟨hinc, ?_⟩
  obtain ⟨roi, h1, h2, h3, h4, h5, h6, h7, h8⟩ :=
    C8_densification c8_tmp [0, 1, 2, 3, 4] (by simp [c8_tmp]) hinc
      (by norm_num [c8_tmp, List.getLastD])
  refine ⟨roi, h1, ?_, ?_, ?_, ?_, ?_⟩
  · simpa [c8_tmp, List.headD] using h2
  · simpa [c8_tmp, List.headD, List.getLastD] using h3
  · have := (h6 0 2 (by norm_num [c8_tmp])).1 10 (by norm_num [c8_tmp])
    simpa [c8_tmp, List.headD] using this
  · have := h7 1 (by norm_num [c8_tmp, List.headD, List.getLastD])
      (by norm_num [c8_tmp, List.headD])
    simpa using this.1
  · have := (h6 1 4 (by norm_num [c8_tmp])).1 11 (by norm_num [c8_tmp])
    simpa [c8_tmp, List.headD] using this

set_option maxHeartbeats 4000000

theorem lt_length_of_getElem?_some {α : Type} (l : List α) (k : ℕ) (u : α)
    (h : l[k]? = some u) : k < l.length := by
  by_contra hc
  rw [List.getElem?_eq_none (by omega)] at h
  exact absurd h (by simp)

theorem resolvedOf_fst_mz (mz1 mz2 sp2 : List ℚ) (tol : ℚ) (ci : List ℕ) :
    ((resolvedOf mz1 mz2 sp2 tol ci).map fun r => (r.pos, r.mzRep)).map
        Prod.fst = (dupGroupsOf mz1 mz2 tol ci).map Prod.fst := by
  unfold resolvedOf
  simp [List.map_map, Function.comp, resolveGroup]

theorem resolvedOf_fst_sp (mz1 mz2 sp2 : List ℚ) (tol : ℚ) (ci : List ℕ) :
    ((resolvedOf mz1 mz2 sp2 tol ci).map fun r => (r.pos, r.spRep)).map
        Prod.fst = (dupGroupsOf mz1 mz2 tol ci).map Prod.fst := by
  unfold resolvedOf
  simp [List.map_map, Function.comp, resolveGroup]

theorem dupGroupsOf_fst_nodup (mz1 mz2 : List ℚ) (tol : ℚ) (ci : List ℕ) :
    ((dupGroupsOf mz1 mz2 tol ci).map Prod.fst).Nodup := by
  unfold dupGroupsOf
  exact (dupGroupsAux_fst_pairwise 0 _ _).imp Nat.ne_of_lt

/-- C4 (amended): under the `closest` policy, for each trace with
several contending in-range peaks (a multiple-match group), only the
contender with minimal |Δm/z| within the group's block is recorded as
that trace's match (first three conjuncts: the winner minimises the
distance over the block and its values replace the trace's match
entries).  The other contending positions are NOT silently dropped: the
code re-inserts them into the full-scan no-match mask (lcms.py line
1207, in the coordinates of the filtered matched-peak arrays), so the
corresponding peaks re-enter the unmatched output (fourth conjunct) and,
in untargeted mode, unmatched peaks spawn new traces via `extend`
(fifth conjunct) — contradicting the claim's "dropped, not reinserted,
not spawned" (see the counterexample). -/
theorem C4_closest_policy (mz1 mz2 sp2 : List ℚ) (tol : ℚ)
    (f g : List ℚ → ℚ) (ci : List ℕ) (mr : MatchResult) (grp : ℕ × ℕ × ℕ)
    (hci : find_closest_list mz1 mz2 = some ci)
    (hsp : sp2.length = mz2.length)
    (hmm : match_mz mz1 mz2 sp2 tol "closest" f g = some mr)
    (hg : grp ∈ dupGroupsOf mz1 mz2 tol ci) :
    (∀ j, grp.2.1 ≤ j → j < grp.2.1 + grp.2.2 →
      (dmzMOf mz1 mz2 tol ci).getD
          (resolveGroup (dmzMOf mz1 mz2 tol ci) (mzMOf mz1 mz2 tol ci)
            (spMOf mz1 mz2 sp2 tol ci) grp).win 0 ≤
        (dmzMOf mz1 mz2 tol ci).getD j 0) ∧
    mr.mz_match[grp.1]? =
      some (resolveGroup (dmzMOf mz1 mz2 tol ci) (mzMOf mz1 mz2 tol ci)
        (spMOf mz1 mz2 sp2 tol ci) grp).mzRep ∧
    mr.sp_match[grp.1]? =
      some (resolveGroup (dmzMOf mz1 mz2 tol ci) (mzMOf mz1 mz2 tol ci)
        (spMOf mz1 mz2 sp2 tol ci) grp).spRep ∧
    (∀ j ∈ (resolveGroup (dmzMOf mz1 mz2 tol ci) (mzMOf mz1 mz2 tol ci)
        (spMOf mz1 mz2 sp2 tol ci) grp).rm,
      mz2.getD j 0 ∈ mr.mz_no_match ∧ sp2.getD j 0 ∈ mr.sp_no_match) ∧
    (∀ (s : RoiProcessor) (mzL spL : List ℚ) (s1 : RoiProcessor) (jj : ℕ)
        (m v : ℚ), s.extend mzL spL = some s1 → mzL[jj]? = some m →
      spL[jj]? = some v → ∃ t, t ∈ s1.traces ∧ t.mzMean = m ∧ t.length = 1) := by
  have hcilen : ci.length = mz2.length := find_closest_list_length mz1 mz2 ci hci
  have hmr := match_mz_closest_elim mz1 mz2 sp2 tol f g ci mr hci hmm
  subst hmr
  -- the group's position, first occurrence and count
  have hg' : grp ∈ dupGroupsAux 0 (firstIdxOf mz1 mz2 tol ci)
      (countOf mz1 mz2 tol ci) := hg
  obtain ⟨k, hk1, hkfi, hkci, hkcnt⟩ :=
    dupGroupsAux_mem_elim 0 (firstIdxOf mz1 mz2 tol ci)
      (countOf mz1 mz2 tol ci) grp hg'
  rw [Nat.zero_add] at hk1
  rw [show firstIdxOf mz1 mz2 tol ci = (uniqueOf mz1 mz2 tol ci).map
      (fun v => firstIdx v (matchIdxOf mz1 mz2 tol ci)) from rfl,
    List.getElem?_map, Option.map_eq_some'] at hkfi
  obtain ⟨u, hu, hufi⟩ := hkfi
  rw [show countOf mz1 mz2 tol ci = (uniqueOf mz1 mz2 tol ci).map
      (fun v => countVal v (matchIdxOf mz1 mz2 tol ci)) from rfl,
    List.getElem?_map, Option.map_eq_some'] at hkci
  obtain ⟨u', hu', hucnt⟩ := hkci
  rw [hu] at hu'
  injection hu' with hu'e
  subst hu'e
  have hu_mem : u ∈ matchIdxOf mz1 mz2 tol ci := by
    have h1 : u ∈ uniqueOf mz1 mz2 tol ci :=
      List.get?_mem (by rw [List.get?_eq_getElem?]; exact hu)
    exact (mem_uniqueVals u (matchIdxOf mz1 mz2 tol ci)).1 h1
  have hsum : grp.2.1 + grp.2.2 ≤ (matchIdxOf mz1 mz2 tol ci).length := by
    have := firstIdx_add_countVal_le u (matchIdxOf mz1 mz2 tol ci) hu_mem
    omega
  -- lengths of the filtered arrays
  have hdmz_len : (dmzOf mz1 ci mz2).length = ci.length := by
    rw [dmzOf_length]
    omega
  have hmask_len : (matchMaskOf mz1 mz2 tol ci).length = mz2.length := by
    rw [show matchMaskOf mz1 mz2 tol ci = (dmzOf mz1 ci mz2).map
        (fun d => decide (d ≤ tol)) from rfl, List.length_map, hdmz_len, hcilen]
  have hmi_le : (matchIdxOf mz1 mz2 tol ci).length ≤ mz2.length := by
    have := maskFilter_length_le (matchMaskOf mz1 mz2 tol ci) ci
    rw [hcilen] at this
    exact this
  have hdmzM_len : (dmzMOf mz1 mz2 tol ci).length =
      (matchIdxOf mz1 mz2 tol ci).length :=
    maskFilter_length_eq _ _ _ (by rw [hdmz_len])
  have hmzM_len : (mzMOf mz1 mz2 tol ci).length =
      (matchIdxOf mz1 mz2 tol ci).length :=
    maskFilter_length_eq _ _ _ (by rw [hcilen])
  have hspM_len : (spMOf mz1 mz2 sp2 tol ci).length =
      (matchIdxOf mz1 mz2 tol ci).length :=
    maskFilter_length_eq _ _ _ (by rw [hsp, hcilen])
  -- the winner block
  have hslice_len : (((dmzMOf mz1 mz2 tol ci).drop grp.2.1).take grp.2.2).length =
      grp.2.2 :=
    drop_take_length _ _ _ (by omega)
  have hargmin_lt : listArgmin (((dmzMOf mz1 mz2 tol ci).drop grp.2.1).take
      grp.2.2) < grp.2.2 := by
    have h1 := listArgmin_lt_length
      (((dmzMOf mz1 mz2 tol ci).drop grp.2.1).take grp.2.2)
      (List.ne_nil_of_length_pos (by rw [hslice_len]; omega))
    rw [hslice_len] at h1
    exact h1
  have hwin : (resolveGroup (dmzMOf mz1 mz2 tol ci) (mzMOf mz1 mz2 tol ci)
      (spMOf mz1 mz2 sp2 tol ci) grp).win =
      listArgmin (((dmzMOf mz1 mz2 tol ci).drop grp.2.1).take grp.2.2) +
        grp.2.1 := rfl
  have hk_lt : k < (uniqueOf mz1 mz2 tol ci).length :=
    lt_length_of_getElem?_some _ k u hu
  -- membership of the group's resolution in the replacement list
  have hres_mem : resolveGroup (dmzMOf mz1 mz2 tol ci) (mzMOf mz1 mz2 tol ci)
      (spMOf mz1 mz2 sp2 tol ci) grp ∈ resolvedOf mz1 mz2 sp2 tol ci :=
    List.mem_map_of_mem _ hg
  refine ⟨?_, ?_, ?_, ?_, ?_⟩
  · -- (a) the winner minimises |dmz| over the block
    intro j hj1 hj2
    have h1 : (((dmzMOf mz1 mz2 tol ci).drop grp.2.1).take grp.2.2).getD
        (listArgmin (((dmzMOf mz1 mz2 tol ci).drop grp.2.1).take grp.2.2)) 0 =
        (dmzMOf mz1 mz2 tol ci).getD
          (grp.2.1 + listArgmin (((dmzMOf mz1 mz2 tol ci).drop grp.2.1).take
            grp.2.2)) 0 :=
      getD_drop_take _ _ _ _ hargmin_lt
    have h2 : (((dmzMOf mz1 mz2 tol ci).drop grp.2.1).take grp.2.2).getD
        (j - grp.2.1) 0 =
        (dmzMOf mz1 mz2 tol ci).getD (grp.2.1 + (j - grp.2.1)) 0 :=
      getD_drop_take _ _ _ _ (by omega)
    have h3 := listArgmin_le (((dmzMOf mz1 mz2 tol ci).drop grp.2.1).take
      grp.2.2) (j - grp.2.1) (by rw [hslice_len]; omega)
    rw [h1, h2] at h3
    rw [hwin]
    have he1 : grp.2.1 + listArgmin (((dmzMOf mz1 mz2 tol ci).drop
        grp.2.1).take grp.2.2) =
        listArgmin (((dmzMOf mz1 mz2 tol ci).drop grp.2.1).take grp.2.2) +
          grp.2.1 := by omega
    have he2 : grp.2.1 + (j - grp.2.1) = j := by omega
    rw [he1, he2] at h3
    exact h3
  · -- (b) the winner's m/z is the recorded match for the trace
    show (applyReps (baseMzMatchOf mz1 mz2 tol ci)
      ((resolvedOf mz1 mz2 sp2 tol ci).map fun r => (r.pos, r.mzRep)))[grp.1]? = _
    apply applyReps_getElem?_mem
    · exact List.mem_map_of_mem _ hres_mem
    · rw [resolvedOf_fst_mz]
      exact dupGroupsOf_fst_nodup mz1 mz2 tol ci
    · rw [show (baseMzMatchOf mz1 mz2 tol ci).length =
          (uniqueOf mz1 mz2 tol ci).length by
        unfold baseMzMatchOf firstIdxOf
        simp]
      omega
  · -- (b') the winner's intensity is the recorded match for the trace
    show (applyReps (baseSpMatchOf mz1 mz2 sp2 tol ci)
      ((resolvedOf mz1 mz2 sp2 tol ci).map fun r => (r.pos, r.spRep)))[grp.1]? = _
    apply applyReps_getElem?_mem
    · exact List.mem_map_of_mem _ hres_mem
    · rw [resolvedOf_fst_sp]
      exact dupGroupsOf_fst_nodup mz1 mz2 tol ci
    · rw [show (baseSpMatchOf mz1 mz2 sp2 tol ci).length =
          (uniqueOf mz1 mz2 tol ci).length by
        unfold baseSpMatchOf firstIdxOf
        simp]
      omega
  · -- (c) every losing contender position re-enters the unmatched output
    intro j hj
    have hjr : j ∈ List.range' grp.2.1 grp.2.2 := List.mem_of_mem_filter hj
    have hjb := (List.mem_range'_1).1 hjr
    have hj_lt : j < mz2.length := by omega
    have hflat : j ∈ ((resolvedOf mz1 mz2 sp2 tol ci).map
        (fun r => r.rm)).flatten :=
      List.mem_flatten.2 ⟨_, List.mem_map_of_mem _ hres_mem, hj⟩
    have hnm : (noMaskClosestOf mz1 mz2 sp2 tol ci)[j]? = some true := by
      unfold noMaskClosestOf
      apply setTrue_getElem?_mem _ _ _ hflat
      rw [List.length_map, hmask_len]
      exact hj_lt
    constructor
    · exact maskFilter_getD_mem _ _ _ hnm hj_lt
    · exact maskFilter_getD_mem _ _ _ hnm (by omega)
  · -- (d) in untargeted mode, unmatched peaks spawn new traces
    intro s mzL spL s1 jj m v hx hm hv
    obtain ⟨t, ht, hme, _, hlen, _, _⟩ := extend_spawn s mzL spL s1 hx jj m v hm hv
    exact ⟨t, ht, hme, hlen⟩

/-- C4 (counterexample): the spec's own example — one active trace at
m/z 100, tolerance 0.005, contending peaks 100.001 and 100.004 — where
the claim says 100.004 is dropped (not placed in the unmatched output):
the code returns 100.004 in the unmatched output (from where, in
untargeted mode, `add` spawns a new trace). -/
theorem C4_counterexample :
    match_mz [100] [100001/1000, 100004/1000] [10, 20] (5/1000) "closest"
        np_mean np_sum =
      some ⟨[0], [100001/1000], [10], [100004/1000], [20]⟩ ∧
    (100004 : ℚ)/1000 ∈
      MatchResult.mz_no_match ⟨[0], [100001/1000], [10], [100004/1000], [20]⟩ := by
  constructor
  · norm_num [match_mz, find_closest_list, find_closest, listArgmin, dupGroupsOf,
      firstIdxOf, countOf, uniqueOf, matchIdxOf, matchMaskOf, dmzOf, maskFilter,
      uniqueVals, insertSortedDistinct, firstIdx, countVal, dupGroupsAux,
      closestPipeline, resolvedOf, resolveGroup, dmzMOf, mzMOf, spMOf,
      baseMzMatchOf, baseSpMatchOf, noMaskClosestOf, setTrue, applyReps,
      abs_of_nonneg, abs_of_nonpos]
  · simp

theorem C4_witness :
    ((0, 0, 2) : ℕ × ℕ × ℕ) ∈
      dupGroupsOf [100] [100001/1000, 100004/1000] (5/1000) [0, 0] ∧
    ([(100001 : ℚ)/1000, 100004/1000].getD 1 0 ∈
      MatchResult.mz_no_match ⟨[0], [100001/1000], [10], [100004/1000], [20]⟩) := by
  have hci : find_closest_list [100] [100001/1000, 100004/1000] = some [0, 0] := by
    norm_num [find_closest_list, find_closest, listArgmin]
  have hmm : match_mz [100] [100001/1000, 100004/1000] [10, 20] (5/1000)
      "closest" np_mean np_sum =
      some ⟨[0], [100001/1000], [10], [100004/1000], [20]⟩ := by
    norm_num [match_mz, find_closest_list, find_closest, listArgmin, dupGroupsOf,
      firstIdxOf, countOf, uniqueOf, matchIdxOf, matchMaskOf, dmzOf, maskFilter,
      uniqueVals, insertSortedDistinct, firstIdx, countVal, dupGroupsAux,
      closestPipeline, resolvedOf, resolveGroup, dmzMOf, mzMOf, spMOf,
      baseMzMatchOf, baseSpMatchOf, noMaskClosestOf, setTrue, applyReps,
      abs_of_nonneg, abs_of_nonpos]
  have hg : ((0, 0, 2) : ℕ × ℕ × ℕ) ∈
      dupGroupsOf [100] [100001/1000, 100004/1000] (5/1000) [0, 0] := by
    norm_num [dupGroupsOf, firstIdxOf, countOf, uniqueOf, matchIdxOf,
      matchMaskOf, dmzOf, maskFilter, uniqueVals, insertSortedDistinct,
      firstIdx, countVal, dupGroupsAux, abs_of_nonneg, abs_of_nonpos]
  have hrm : (1 : ℕ) ∈ (resolveGroup
      (dmzMOf [100] [100001/1000, 100004/1000] (5/1000) [0, 0])
      (mzMOf [100] [100001/1000, 100004/1000] (5/1000) [0, 0])
      (spMOf [100] [100001/1000, 100004/1000] [10, 20] (5/1000) [0, 0])
      ((0, 0, 2) : ℕ × ℕ × ℕ)).rm := by
    norm_num [resolveGroup, listArgmin, dmzMOf, mzMOf, spMOf, matchMaskOf,
      dmzOf, maskFilter, List.range', abs_of_nonneg, abs_of_nonpos]
  have h := C4_closest_policy [100] [100001/1000, 100004/1000] [10, 20]
    (5/1000) np_mean np_sum [0, 0]
    ⟨[0], [100001/1000], [10], [100004/1000], [20]⟩ (0, 0, 2)
    hci (by norm_num) hmm hg
  exact ⟨hg, (h.2.2.2.1 1 hrm).1⟩
